import Mathlib

/-!
Verification of the DNS zone reconciliation engine of the bind operator
(`src/dns_data.py`, `src/bind.py`, `src/constants.py`).

Text is modelled as `List Char`; Python string helpers (`split`, `strip`,
`startswith`, whitespace `split()`) are embedded as executable functions over
character lists.  Python `set`s of DNS entries are modelled as
insertion-ordered lists that are de-duplicated by the entry identity
relation, which mirrors the observable semantics of `set.add`, `in`,
`set.update` and set difference.

The `models.py` module of the repository (the `DnsEntry`, `Zone` and
`Topology` value types with their equality, hash and `conflicts` predicates)
is not part of the sources at hand; those definitions are modelled from the
specification and marked as such in their doc comments.
-/

set_option autoImplicit false
set_option maxRecDepth 8000

namespace BindOp

abbrev Str := List Char

/-- Whitespace test used by the embedding of Python `str.split()` and
`str.strip()`. -/
def isWsB (c : Char) : Bool := c = ' ' || c = '\t' || c = '\n' || c = '\r'

/-- Embedding of Python `str.split(sep)` generalized over a character
predicate: splits at every character satisfying `p`, keeping empty pieces.
`splitOnPred p l` always returns a nonempty list of pieces. -/
def splitOnPred (p : Char → Bool) : Str → List Str
  | [] => [[]]
  | c :: rest =>
    match splitOnPred p rest with
    | [] => [[]]
    | s :: ss => if p c then [] :: s :: ss else (c :: s) :: ss

/-- Embedding of Python `str.split(sep)` for a one-character separator. -/
def splitOnChar (sep : Char) (s : Str) : List Str := splitOnPred (fun c => c = sep) s

/-- Embedding of Python `str.split()` (no argument): split on whitespace
runs and drop empty pieces. -/
def pySplitWs (s : Str) : List Str := (splitOnPred isWsB s).filter (fun t => t ≠ [])

/-- Embedding of Python `str.strip()`. -/
def pyStrip (s : Str) : Str := ((s.dropWhile isWsB).reverse.dropWhile isWsB).reverse

/-- Embedding of Python `sub in s` (substring containment) for the uses in
`bind.py`; `startsAt` checks containment at the current position. -/
def containsSub (sub : Str) : Str → Bool
  | [] => sub.isPrefixOf []
  | c :: rest => sub.isPrefixOf (c :: rest) || containsSub sub rest

theorem splitOnPred_ne_nil (p : Char → Bool) (l : Str) : splitOnPred p l ≠ [] := by
  cases l with
  | nil => simp [splitOnPred]
  | cons c rest =>
    simp only [splitOnPred]
    cases h : splitOnPred p rest with
    | nil => simp
    | cons s ss =>
      by_cases hp : p c <;> simp [hp]

/-- Decimal digit characters, used to embed Python string formatting of
integers (`f"{hash}"`, `f"{serial}"`). -/
def digitChar : Nat → Char
  | 0 => '0' | 1 => '1' | 2 => '2' | 3 => '3' | 4 => '4'
  | 5 => '5' | 6 => '6' | 7 => '7' | 8 => '8' | _ => '9'

/-- Helper for `natToStr`: accumulate decimal digits of `n` before `acc`.
The first argument is fuel (any value at least `n` gives the digits of
`n`); structural recursion on the fuel keeps the function reducible. -/
def natToStrGo : Nat → Nat → Str → Str
  | 0, _, acc => acc
  | f + 1, n, acc =>
    if n = 0 then acc else natToStrGo f (n / 10) (digitChar (n % 10) :: acc)

/-- Embedding of Python decimal formatting of a natural number. -/
def natToStr (n : Nat) : Str := if n = 0 then ['0'] else natToStrGo (n + 1) n []

/-- Digit test for the embedding of Python `int(...)`. -/
def isDigitB (c : Char) : Bool := 48 ≤ c.toNat && c.toNat ≤ 57

/-- Helper for `parseInt`: read a digit string as a natural number. -/
def parseNatGo (acc : Nat) : Str → Nat
  | [] => acc
  | c :: rest => parseNatGo (acc * 10 + (c.toNat - 48)) rest

/-- Embedding of Python `int(s)` on the string shapes that occur here:
an optional minus sign followed by a nonempty digit string parses, anything
else raises `ValueError` (modelled as `none`). -/
def parseInt : Str → Option Int
  | [] => none
  | c :: rest =>
    if c = '-' then
      if rest ≠ [] && rest.all isDigitB then some (-(parseNatGo 0 rest : Int)) else none
    else
      if (c :: rest).all isDigitB then some ((parseNatGo 0 (c :: rest) : Nat) : Int)
      else none

/-! ## Data model

`DnsEntry`, `Zone` and `Topology` live in the repository's `models.py`,
which is not among the sources; they are modelled from the specification
(spec §3).  The relation-data shapes come from the `charms.bind.v0.dns_record`
library interface (spec §6): a requirer submission is a list of entries, and
`relation_data` is the ordered list of submissions (the provider half of each
relation tuple is never read by the functions under study, so it is omitted). -/

/-- Modelled from the spec (§3, `models.DnsEntry` is absent from src/):
one desired DNS record.  The request identifier (`uuid`) is opaque; it is
modelled as a natural number. -/
structure DnsEntry where
  domain : Str
  host_label : Str
  ttl : Option Nat
  record_class : Str
  record_type : Str
  record_data : Str
  uuid : Nat
deriving DecidableEq, Repr

/-- Modelled from the spec (§3): the identity tuple of an entry — two
entries are identical iff domain, host_label, record_type and record_data
all match; ttl, class and id are not part of identity. -/
def DnsEntry.key (e : DnsEntry) : Str × Str × Str × Str :=
  (e.domain, e.host_label, e.record_type, e.record_data)

/-- Identity test (`models.DnsEntry.__eq__`, modelled from the spec §3). -/
def sameE (a b : DnsEntry) : Bool := decide (a.key = b.key)

/-- Modelled from the spec (§3, `models.DnsEntry.conflicts` is absent from
src/): two distinct entries conflict iff they share (domain, host_label,
record_type) but differ in record_data. -/
def conflictB (a b : DnsEntry) : Bool :=
  decide (a.domain = b.domain ∧ a.host_label = b.host_label ∧
    a.record_type = b.record_type ∧ a.record_data ≠ b.record_data)

/-! Python `set[DnsEntry]` is modelled as an insertion-ordered list that is
de-duplicated by entry identity. -/

/-- Membership by identity: embedding of Python `e in s` on an entry set. -/
def memE (e : DnsEntry) (s : List DnsEntry) : Bool := s.any (fun y => sameE e y)

/-- Embedding of Python `s.add(e)` on an entry set. -/
def addE (s : List DnsEntry) (e : DnsEntry) : List DnsEntry :=
  if memE e s then s else s ++ [e]

/-- Embedding of Python `s.update(t)` on entry sets. -/
def unionE (s t : List DnsEntry) : List DnsEntry := t.foldl addE s

/-- Entry set built from a list, in encounter order (embedding of a Python
set comprehension / repeated `add`). -/
def dedupE (l : List DnsEntry) : List DnsEntry := l.foldl addE []

/-- Modelled from the spec (§3, `models.Topology` is absent from src/):
the externally resolved topology, with the fields `bind.py` reads.
Unit addresses are modelled as strings. -/
structure Topology where
  active_unit_ip : Str
  standby_units_ip : List Str
  is_current_unit_active : Bool
deriving DecidableEq, Repr

/-- Modelled from the spec (§3, `models.Zone` is absent from src/):
a domain plus a set of entries (the set modelled as above). -/
structure Zone where
  domain : Str
  entries : List DnsEntry
deriving DecidableEq, Repr

/-- Statuses of the `charms.bind.v0.dns_record` library used by the charm
(the library is outside src/; the value set is taken from its unit test). -/
inductive Status where
  | approved | conflict | unknown | invalid_credentials | invalid_data
deriving DecidableEq, Repr

/-- One per-request status (`DNSProviderData`). -/
structure DNSProviderData where
  uuid : Nat
  status : Status
deriving DecidableEq, Repr

/-- A requirer submission: the `dns_entries` of one `DNSRecordRequirerData`
(spec §6; `create_dns_entry_from_requirer_entry` maps a requirer entry to a
`DnsEntry` field by field, so both sides are modelled by `DnsEntry`). -/
abbrev RequirerData := List DnsEntry

/-- The relation data: ordered list of requirer submissions.  The provider
half of each tuple is never read (`for record_requirer_data, _ in ...`). -/
abbrev RelationData := List RequirerData

/-- All submitted entries across all submissions, in submission order. -/
def flatEntries (rel : RelationData) : List DnsEntry := rel.flatMap id

/-! ## dns_data.py -/

/-- One step of the insertion-ordered dict update
`zones_entries[entry.domain].append(entry)` of
`record_requirer_data_to_zones` (src/dns_data.py:99-102). -/
def groupStep (acc : List (Str × List DnsEntry)) (e : DnsEntry) : List (Str × List DnsEntry) :=
  if acc.any (fun p => p.1 = e.domain) then
    acc.map (fun p => if p.1 = e.domain then (p.1, p.2 ++ [e]) else p)
  else acc ++ [(e.domain, [e])]

/-- First grouping stage of `record_requirer_data_to_zones`
(src/dns_data.py:98-102): the insertion-ordered dict from domain to the
submitted entries with that domain, in submission order. -/
def groupByDomain (entries : List DnsEntry) : List (Str × List DnsEntry) :=
  entries.foldl groupStep []

/-- Embedding of `dns_data.record_requirer_data_to_zones`
(src/dns_data.py:87-110); `bind.BindService._record_requirer_data_to_zones`
(src/bind.py:346-369) is the same code.  Each domain's zone collects its
entries into a set (`zone.entries.add(...)` in submission order). -/
def record_requirer_data_to_zones (rrd : RequirerData) : List Zone :=
  (groupByDomain rrd).map (fun p => { domain := p.1, entries := p.2.foldl addE [] })

/-- One step of the domain-keyed dict update of
`dns_record_relations_data_to_zones` (src/dns_data.py:146-149): an existing
zone with the same domain absorbs the new zone's entries via
`entries.update`, otherwise the new zone is inserted. -/
def mergeZone (zs : List Zone) (nz : Zone) : List Zone :=
  if zs.any (fun z => z.domain = nz.domain) then
    zs.map (fun z =>
      if z.domain = nz.domain then
        { domain := z.domain, entries := unionE z.entries nz.entries }
      else z)
  else zs ++ [nz]

/-- Embedding of `dns_data.dns_record_relations_data_to_zones`
(src/dns_data.py:132-150); `bind.BindService._dns_record_relations_data_to_zones`
(src/bind.py:468-487) is the same code.  Zones from all submissions merge by
domain, in an insertion-ordered dict. -/
def dns_record_relations_data_to_zones (rel : RelationData) : List Zone :=
  rel.foldl (fun zones rrd => (record_requirer_data_to_zones rrd).foldl mergeZone zones) []

/-- Embedding of `dns_data.get_conflicts` (src/dns_data.py:113-129): the
pure-set conflict detector.  `entries` is the set comprehension over all
zones' entries; an entry joins the conflicting set iff some entry of the set
conflicts with it and differs from it. -/
def get_conflicts (zones : List Zone) : List DnsEntry × List DnsEntry :=
  let entries := dedupE (zones.foldl (fun acc z => acc ++ z.entries) [])
  let conflicting :=
    entries.filter (fun entry => entries.any (fun e => conflictB entry e && !sameE entry e))
  (entries.filter (fun entry => !memE entry conflicting), conflicting)

/-- Embedding of `dns_data.create_dns_record_provider_data`
(src/dns_data.py:22-49): one status is appended per submitted requirer
entry, by membership of its `DnsEntry` in the conflict partition. -/
def create_dns_record_provider_data (rel : RelationData) : List DNSProviderData :=
  let zones := dns_record_relations_data_to_zones rel
  let parts := get_conflicts zones
  (flatEntries rel).map (fun e =>
    if memE e parts.1 then { uuid := e.uuid, status := Status.approved }
    else if memE e parts.2 then { uuid := e.uuid, status := Status.conflict }
    else { uuid := e.uuid, status := Status.unknown })

/-- Zone equality (`models.Zone.__eq__`, modelled from the spec §3:
a domain plus a set of entries): same domain and same entry set. -/
def zoneEqB (a b : Zone) : Bool :=
  decide (a.domain = b.domain) &&
    (a.entries.all (fun e => memE e b.entries) && b.entries.all (fun e => memE e a.entries))

/-- Python set equality on collections of zones (mutual membership by
`Zone.__eq__`). -/
def zoneSetEqB (a b : List Zone) : Bool :=
  a.all (fun z => b.any (fun w => zoneEqB z w)) && b.all (fun z => a.any (fun w => zoneEqB w z))

/-- Modelled from the spec (`models.Topology.__hash__` is absent from
src/): an opaque hash over the topology's fields. -/
def topoHash (t : Topology) : Nat :=
  (t.active_unit_ip.foldl (fun h c => h * 131 + c.toNat + 1) 7) +
    t.standby_units_ip.foldl (fun h s => h + s.foldl (fun a c => a * 131 + c.toNat + 1) 7) 0 +
    (if t.is_current_unit_active then 1 else 0)

/-- The deserialized content of `state.json` as read by
`dns_data.has_changed`: an optional "zones" key and an optional "topology"
key. -/
structure LastValidState where
  zones : Option (List Zone)
  topology : Option Topology
deriving DecidableEq

/-- Embedding of `dns_data.has_changed` (src/dns_data.py:52-84). -/
def has_changed (rel : RelationData) (topology : Option Topology)
    (last : LastValidState) : Bool :=
  let zones := dns_record_relations_data_to_zones rel
  match last.zones with
  | none => true
  | some stored =>
    if !zoneSetEqB stored zones then true
    else
      match topology, last.topology with
      | some t, some u => if topoHash t ≠ topoHash u then true else false
      | _, _ => false

/-! ## bind.py: conflict detection and hashing -/

/-- Inner loop of `BindService._get_conflicts` (src/bind.py:390-394):
scan the remaining working list for conflicts with `entry`, adding `entry`
and each conflicting partner to the conflicting set. -/
def scanConf (entry : DnsEntry) (remaining : List DnsEntry)
    (conf : List DnsEntry) : Bool × List DnsEntry :=
  remaining.foldl
    (fun acc e =>
      if conflictB entry e && !sameE entry e then (true, addE (addE acc.2 entry) e)
      else acc)
    (false, conf)

/-- Recursion of `BindService._get_conflicts` (src/bind.py:385-398): the
working list is consumed from its end (`entries.pop()`), so the recursion
runs over the reversed flattened list; at each step the remaining entries
(`rest.reverse`, restoring original order) are scanned. -/
def getConflictsGo : List DnsEntry → List DnsEntry → List DnsEntry →
    List DnsEntry × List DnsEntry
  | [], nonconf, conf => (nonconf, conf)
  | entry :: rest, nonconf, conf =>
    if memE entry conf then getConflictsGo rest nonconf conf
    else if (scanConf entry rest.reverse conf).1 then
      getConflictsGo rest nonconf (scanConf entry rest.reverse conf).2
    else getConflictsGo rest (addE nonconf entry) conf

/-- Embedding of `BindService._get_conflicts` (src/bind.py:371-399): the
destructive working-list conflict detector. -/
def bind_get_conflicts (zones : List Zone) : List DnsEntry × List DnsEntry :=
  getConflictsGo (zones.foldl (fun acc z => acc ++ z.entries) []).reverse [] []

/-- Embedding of `BindService.create_dns_record_provider_data`
(src/bind.py:239-271): same as `create_dns_record_provider_data` but using
the destructive conflict detector. -/
def bind_create_dns_record_provider_data (rel : RelationData) : List DNSProviderData :=
  let zones := dns_record_relations_data_to_zones rel
  let parts := bind_get_conflicts zones
  (flatEntries rel).map (fun e =>
    if memE e parts.1 then { uuid := e.uuid, status := Status.approved }
    else if memE e parts.2 then { uuid := e.uuid, status := Status.conflict }
    else { uuid := e.uuid, status := Status.unknown })

/-- Modelled from the spec (§4.3, `models.DnsEntry.__hash__` is absent
from src/): a hash of the entry's identity tuple. -/
def entryHash (e : DnsEntry) : Nat :=
  (e.domain ++ '|' :: e.host_label ++ '|' :: e.record_type ++ '|' :: e.record_data).foldl
    (fun h c => h * 131 + c.toNat + 1) 7

/-- Modelled from the spec (§4.3, `models.Zone.__hash__` is absent from
src/): an order-independent combined hash of the zone's entry set. -/
def zoneHash (z : Zone) : Nat := z.entries.foldl (fun h e => h + entryHash e) 0

/-! ## constants.py: rendered text templates -/

/-- The character `{` (kept out of string literals). -/
def lbrace : Char := Char.ofNat 123

/-- The character `}` (kept out of string literals). -/
def rbrace : Char := Char.ofNat 125

/-- `constants.DNS_CONFIG_DIR`. -/
def DNS_CONFIG_DIR : Str := "/var/snap/charmed-bind/current/etc/bind".toList

/-- Zone file name `db.{domain}` inside the configuration directory. -/
def dbFile (domain : Str) : Str := "db.".toList ++ domain

/-- The file name `named.conf.local`. -/
def namedConfLocal : Str := "named.conf.local".toList

/-- The service-test zone file name `db.service.test`. -/
def dbServiceFile : Str := "db.service.test".toList

/-- Embedding of `constants.ZONE_SERVICE` formatted with a serial
(src/constants.py:15-20). -/
def zoneServiceText (serial : Nat) : Str :=
  "$ORIGIN service.test.\n$TTL 600\n@ IN SOA service.test. mail.service.test. ( ".toList ++
    natToStr serial ++ " 1d 1h 1h 10m )\n@ IN NS localhost.\nstatus IN TXT \"ok\"\n".toList

/-- Embedding of `constants.ZONE_HEADER_TEMPLATE` formatted with zone
domain, serial and hash (src/constants.py:22-26). -/
def zoneHeaderText (domain : Str) (serial : Nat) (h : Nat) : Str :=
  "$ORIGIN ".toList ++ domain ++ ".; HASH:".toList ++ natToStr h ++
    "\n$TTL 600\n@ IN SOA ".toList ++ domain ++ ". mail.".toList ++ domain ++
    ". ( ".toList ++ natToStr serial ++ " 1d 1h 1h 10m )\n@ IN NS localhost.\n".toList

/-- Embedding of `constants.ZONE_RECORD_TEMPLATE` formatted with an entry
(src/constants.py:28). -/
def zoneRecordText (e : DnsEntry) : Str :=
  e.host_label ++ ' ' :: e.record_class ++ ' ' :: e.record_type ++ ' ' :: e.record_data ++ ['\n']

/-- Embedding of `constants.NAMED_CONF_PRIMARY_ZONE_DEF_TEMPLATE` formatted
(src/constants.py:30-34). -/
def namedConfPrimaryText (name path ips : Str) : Str :=
  "zone \"".toList ++ name ++ "\" IN \x7b type primary; file \"".toList ++ path ++
    "\"; allow-update \x7b none; \x7d; allow-transfer \x7b ".toList ++ ips ++
    " \x7d; \x7d;\n".toList

/-- Embedding of `constants.NAMED_CONF_SECONDARY_ZONE_DEF_TEMPLATE`
formatted (src/constants.py:36-42). -/
def namedConfSecondaryText (name path ip : Str) : Str :=
  "zone \"".toList ++ name ++ "\" IN \x7b type secondary; file \"".toList ++ path ++
    "\"; masterfile-format text; masterfile-style full; primaries \x7b ".toList ++ ip ++
    " \x7d; \x7d;\n".toList

/-! ## bind.py: renderers -/

/-- Embedding of `BindService._bind_config_ip_list` (src/bind.py:547-560). -/
def bindConfigIpList (ips : List Str) : Str :=
  match ips with
  | [] => []
  | i :: rest => rest.foldl (fun acc s => acc ++ ';' :: s) i ++ [';']

/-- Embedding of `BindService._zones_to_files_content` (src/bind.py:401-429).
The serial is `int(time.time() / 60)`; `now` is the wall-clock time in
seconds.  The records are emitted by iterating the zone's entry set, which
the model represents in insertion order. -/
def zones_to_files_content (zones : List Zone) (now : Nat) : List (Str × Str) :=
  zones.map (fun z =>
    (z.domain,
      z.entries.foldl (fun content e => content ++ zoneRecordText e)
        (zoneHeaderText z.domain (now / 60) (zoneHash z))))

/-- Embedding of `BindService._generate_named_conf_local`
(src/bind.py:431-466). -/
def generate_named_conf_local (zones : List Str) (topology : Option Topology) : Str :=
  let start :=
    "include \"".toList ++ DNS_CONFIG_DIR ++ "/zones.rfc1918\";\n".toList ++
      namedConfPrimaryText "service.test".toList (DNS_CONFIG_DIR ++ "/db.service.test".toList) []
  zones.foldl
    (fun content name =>
      match topology with
      | none => content
      | some t =>
        if t.is_current_unit_active then
          content ++ namedConfPrimaryText name (DNS_CONFIG_DIR ++ '/' :: dbFile name)
            (bindConfigIpList t.standby_units_ip)
        else
          content ++ namedConfSecondaryText name (DNS_CONFIG_DIR ++ '/' :: dbFile name)
            (bindConfigIpList [t.active_unit_ip]))
    start

/-! ## bind.py: deployed-state parsing -/

/-- Error outcomes of `BindService._get_zonefile_metadata`
(src/bind.py:489-521): `invalid` models `InvalidZoneFileMetadataError`
(wrapping `IndexError`/`ValueError`), `empty` models
`EmptyZoneFileMetadataError`, `dup` models `DuplicateMetadataEntryError`. -/
inductive MetaErr where
  | invalid | empty | dup
deriving DecidableEq, Repr

/-- Token loop of `_get_zonefile_metadata` (src/bind.py:511-515): each token
of the comment section splits into exactly `k:v` (otherwise `ValueError`,
i.e. invalid); a repeated key raises the duplicate error. -/
def parseMetaTokens : List Str → List (Str × Str) → Except MetaErr (List (Str × Str))
  | [], md => .ok md
  | t :: ts, md =>
    match splitOnChar ':' t with
    | [k, v] =>
      if md.any (fun p => p.1 = k) then .error .dup
      else parseMetaTokens ts (md ++ [(k, v)])
    | _ => .error .invalid

/-- Per-line handling of `_get_zonefile_metadata` (src/bind.py:507-515): only
`$ORIGIN` lines are read; `line.split(";")[1]` raises `IndexError` (invalid)
when the line has no `;`, otherwise its whitespace-split tokens are parsed. -/
def collectMeta : List Str → List (Str × Str) → Except MetaErr (List (Str × Str))
  | [], md => .ok md
  | line :: ls, md =>
    if ("$ORIGIN".toList).isPrefixOf line then
      match splitOnChar ';' line with
      | _ :: second :: _ =>
        match parseMetaTokens (pySplitWs second) md with
        | .error e => .error e
        | .ok md2 => collectMeta ls md2
      | _ => .error .invalid
    else collectMeta ls md

/-- Embedding of `BindService._get_zonefile_metadata` (src/bind.py:489-521). -/
def get_zonefile_metadata (content : Str) : Except MetaErr (List (Str × Str)) :=
  match collectMeta (splitOnChar '\n' content) [] with
  | .error e => .error e
  | .ok md => if md = [] then .error .empty else .ok md

/-- The regex `allow-transfer\s*\x7b([^\x7d]+)\x7d` applied at the current
position: the literal, an optional whitespace run, an opening brace, a
nonempty run of non-closing-brace characters, and the closing brace. -/
def tryAllowTransferAt (s : Str) : Option Str :=
  match s.dropPrefix? "allow-transfer".toList with
  | none => none
  | some s1 =>
    match s1.dropWhile isWsB with
    | c :: s2 =>
      if c = lbrace then
        let grp := s2.takeWhile (fun d => d ≠ rbrace)
        match grp, s2.dropWhile (fun d => d ≠ rbrace) with
        | [], _ => none
        | _, d :: _ => if d = rbrace then some grp else none
        | _, [] => none
      else none
    | [] => none

/-- Embedding of `re.search` for the allow-transfer pattern: try each start
position from the left. -/
def searchAllowTransfer : Str → Option Str
  | [] => none
  | c :: rest =>
    match tryAllowTransferAt (c :: rest) with
    | some grp => some grp
    | none => searchAllowTransfer rest

/-- Embedding of `BindService._get_secondaries_ip_from_conf`
(src/bind.py:523-545): the first line containing `allow-transfer` whose
regex matches yields the stripped, nonempty `;`-separated pieces of the
group; with no such line the result is the empty list. -/
def get_secondaries_ip_from_conf (content : Str) : List Str :=
  go (splitOnChar '\n' content)
where
  go : List Str → List Str
    | [] => []
    | line :: ls =>
      if containsSub "allow-transfer".toList line then
        match searchAllowTransfer line with
        | some grp =>
          ((splitOnChar ';' grp).map pyStrip).filter (fun t => t ≠ [])
        | none => go ls
      else go ls

/-! ## bind.py: change detector -/

/-- A deployed-file store: an association of file names to contents,
modelling the configuration directory (reads of absent names model
`FileNotFoundError`). -/
abbrev Fs := List (Str × Str)

/-- Read a file (first binding wins, as for a Python dict/filesystem). -/
def lookupFs (fs : Fs) (name : Str) : Option Str :=
  match fs.find? (fun p => p.1 = name) with
  | some p => some p.2
  | none => none

/-- Write a file: replace the binding in place, or append a new one. -/
def fsWrite (fs : Fs) (name content : Str) : Fs :=
  if fs.any (fun p => p.1 = name) then
    fs.map (fun p => if p.1 = name then (p.1, content) else p)
  else fs ++ [(name, content)]

/-- Exceptions that escape `has_a_zone_changed` (src/bind.py:273-319):
`DuplicateMetadataEntryError` is not in its except clause, and the
`int(metadata["HASH"])` conversion can raise `ValueError`. -/
inductive PyErr where
  | dupMeta | valueErr
deriving DecidableEq, Repr

deriving instance DecidableEq for Except

/-- One iteration of the zone loop of `has_a_zone_changed`
(src/bind.py:291-305): `ok true` means `return True`, `ok false` means the
loop continues with the next zone. -/
def hashCheckZone (fs : Fs) (z : Zone) : Except PyErr Bool :=
  match lookupFs fs (dbFile z.domain) with
  | none => .ok true
  | some content =>
    match get_zonefile_metadata content with
    | .error .dup => .error .dupMeta
    | .error _ => .ok true
    | .ok md =>
      match md.find? (fun p => p.1 = "HASH".toList) with
      | none => .ok false
      | some p =>
        match parseInt p.2 with
        | none => .error .valueErr
        | some v => .ok (decide ((zoneHash z : Int) ≠ v))

/-- The zone loop of `has_a_zone_changed`. -/
def zonesChangedLoop (fs : Fs) : List Zone → Except PyErr Bool
  | [] => .ok false
  | z :: zs =>
    match hashCheckZone fs z with
    | .error e => .error e
    | .ok true => .ok true
    | .ok false => zonesChangedLoop fs zs

/-- Result of Python `list.sort()`: the list is sorted in place and the
expression evaluates to `None`.  `has_a_zone_changed` compares the results
of two `.sort()` calls, so both sides of its final comparison are `None`. -/
def pySortResult (l : List Str) : Option (List Str) :=
  let _ := l
  none

/-- Embedding of `BindService.has_a_zone_changed` (src/bind.py:273-319). -/
def has_a_zone_changed (fs : Fs) (rel : RelationData) (topology : Option Topology) :
    Except PyErr Bool :=
  let zones := dns_record_relations_data_to_zones rel
  match zonesChangedLoop fs zones with
  | .error e => .error e
  | .ok true => .ok true
  | .ok false =>
    match topology with
    | some t =>
      if t.is_current_unit_active then
        match lookupFs fs namedConfLocal with
        | none => .ok true
        | some content =>
          .ok (decide (pySortResult (get_secondaries_ip_from_conf content) ≠
            pySortResult t.standby_units_ip))
      else .ok false
    | none => .ok false

/-! ## bind.py: reconciliation orchestrator

`update_zonefiles_and_reload` (src/bind.py:182-237) is embedded as the
sequence of file operations its statements perform, in statement order,
over a pair of stores (the live configuration directory and the staging
temporary directory).  A failure partway through the pass corresponds to
executing only a prefix of the operation list. -/

/-- One file operation of the reconciliation pass. -/
inductive FileOp where
  | writeLive (name content : Str)
  | writeTemp (name content : Str)
  | moveToLive (name : Str)
deriving DecidableEq, Repr

/-- The two stores mutated by the pass. -/
structure FsState where
  live : Fs
  temp : Fs
deriving DecidableEq, Repr

/-- Apply one file operation. -/
def applyOp (st : FsState) : FileOp → FsState
  | .writeLive n c => { st with live := fsWrite st.live n c }
  | .writeTemp n c => { st with temp := fsWrite st.temp n c }
  | .moveToLive n =>
    match lookupFs st.temp n with
    | some c =>
      { live := fsWrite st.live n c,
        temp := st.temp.filter (fun p => p.1 ≠ n) }
    | none => st

/-- Apply a list of file operations in order. -/
def applyOps (st : FsState) (ops : List FileOp) : FsState := ops.foldl applyOp st

/-- Does the topology make this the active unit
(`topology is not None and topology.is_current_unit_active`)? -/
def topoActive : Option Topology → Bool
  | some t => t.is_current_unit_active
  | none => false

/-- The file operations performed by `update_zonefiles_and_reload`
(src/bind.py:182-237), in statement order, once the conflict check has
passed: the service zone file is written directly to the live configuration
directory (src/bind.py:207-212); on the active unit every zone file is
written to the staging directory; `named.conf.local` is written to the
staging directory; finally every staged file is moved into the live
directory (`os.listdir` order modelled as staging write order). -/
def updateOps (rel : RelationData) (topology : Option Topology) (now : Nat) : List FileOp :=
  let zones := dns_record_relations_data_to_zones rel
  let parts := bind_get_conflicts zones
  if parts.2 ≠ [] then []
  else
    let zoneWrites :=
      if topoActive topology then
        (zones_to_files_content zones now).map (fun p => FileOp.writeTemp (dbFile p.1) p.2)
      else []
    let confWrite :=
      FileOp.writeTemp namedConfLocal
        (generate_named_conf_local (zones.map Zone.domain) topology)
    let tempNames :=
      (if topoActive topology then
        (zones_to_files_content zones now).map (fun p => dbFile p.1)
      else []) ++ [namedConfLocal]
    FileOp.writeLive dbServiceFile (zoneServiceText (now / 60)) ::
      zoneWrites ++ [confWrite] ++ tempNames.map FileOp.moveToLive

/-- Embedding of `BindService.update_zonefiles_and_reload`
(src/bind.py:182-237): the resulting live directory and whether a reload of
the serving process was signaled.  `reload(force_start=False)` restarts the
service only when it is already active (`serviceActive`); with a non-empty
conflicting set the function returns before touching any file and without
reloading. -/
def update_zonefiles_and_reload (fs : Fs) (rel : RelationData)
    (topology : Option Topology) (now : Nat) (serviceActive : Bool) : Fs × Bool :=
  let zones := dns_record_relations_data_to_zones rel
  let parts := bind_get_conflicts zones
  if parts.2 ≠ [] then (fs, false)
  else
    ((applyOps { live := fs, temp := [] } (updateOps rel topology now)).live, serviceActive)

/-- The live directory left by executing only the first `k` operations of
the pass (a failure at that point aborts the rest). -/
def liveAfterSteps (fs : Fs) (rel : RelationData) (topology : Option Topology)
    (now : Nat) (k : Nat) : Fs :=
  (applyOps { live := fs, temp := [] } ((updateOps rel topology now).take k)).live

/-- Modelled from the spec (§4.6 step 6; the charm event handler that wires
the change detector to the update is not among the sources): one
reconciliation pass runs the change detector and performs the update (which
itself signals the reload) only when the detector reports changed; a
detector exception aborts the pass. -/
def reconcilePass (fs : Fs) (rel : RelationData) (topology : Option Topology)
    (now : Nat) (serviceActive : Bool) : Fs × Bool :=
  match has_a_zone_changed fs rel topology with
  | .ok true => update_zonefiles_and_reload fs rel topology now serviceActive
  | _ => (fs, false)

/-! ## Lemmas on the entry-set model -/

theorem sameE_iff {a b : DnsEntry} : sameE a b = true ↔ a.key = b.key := by
  simp [sameE]

theorem sameE_refl (a : DnsEntry) : sameE a a = true := by simp [sameE]

theorem sameE_symm {a b : DnsEntry} (h : sameE a b = true) : sameE b a = true := by
  rw [sameE_iff] at h ⊢; exact h.symm

theorem sameE_trans {a b c : DnsEntry} (h1 : sameE a b = true) (h2 : sameE b c = true) :
    sameE a c = true := by
  rw [sameE_iff] at h1 h2 ⊢; exact h1.trans h2

theorem memE_iff {x : DnsEntry} {s : List DnsEntry} :
    memE x s = true ↔ ∃ y ∈ s, sameE x y = true := by
  simp [memE]

theorem memE_of_sameE {x y : DnsEntry} {s : List DnsEntry} (hxy : sameE x y = true)
    (hy : memE y s = true) : memE x s = true := by
  rw [memE_iff] at hy ⊢
  obtain ⟨z, hz, hyz⟩ := hy
  exact ⟨z, hz, sameE_trans hxy hyz⟩

theorem memE_addE (x e : DnsEntry) (s : List DnsEntry) :
    memE x (addE s e) = (memE x s || sameE x e) := by
  unfold addE
  by_cases h : memE e s
  · simp only [h, if_true]
    cases hx : memE x s with
    | true => simp
    | false =>
      simp only [Bool.false_or]
      cases hxe : sameE x e with
      | true => exact absurd (memE_of_sameE hxe h) (by simp [hx])
      | false => rfl
  · simp only [h]
    simp [memE, List.any_append]

theorem memE_foldl_addE (x : DnsEntry) (l s : List DnsEntry) :
    memE x (l.foldl addE s) = (memE x s || memE x l) := by
  induction l generalizing s with
  | nil => simp [memE]
  | cons e rest ih =>
    simp only [List.foldl_cons, ih, memE_addE]
    show (memE x s || sameE x e || memE x rest) = (memE x s || memE x (e :: rest))
    simp only [memE, List.any_cons]
    cases sameE x e <;> cases s.any (fun y => sameE x y) <;> simp

theorem memE_unionE (x : DnsEntry) (s t : List DnsEntry) :
    memE x (unionE s t) = (memE x s || memE x t) := memE_foldl_addE x t s

theorem memE_dedupE (x : DnsEntry) (l : List DnsEntry) :
    memE x (dedupE l) = memE x l := by
  unfold dedupE; rw [memE_foldl_addE]; simp [memE]

/-- The flattened entry list of a zone list, as accumulated by both
conflict detectors. -/
theorem memE_allEntries (x : DnsEntry) (zones : List Zone) (acc : List DnsEntry) :
    memE x (zones.foldl (fun acc z => acc ++ z.entries) acc) =
      (memE x acc || zones.any (fun z => memE x z.entries)) := by
  induction zones generalizing acc with
  | nil => simp
  | cons z rest ih =>
    simp only [List.foldl_cons, ih, List.any_cons]
    simp [memE, List.any_append, Bool.or_assoc]

/-! ## C1: status map and conflict partition -/

/-- Claim C1: `create_dns_record_provider_data` emits exactly one status per
submitted request identifier (the status list is in one-to-one positional
correspondence with the submitted entries), every status is approved,
conflict or unknown — for the `dns_data` version and the `BindService`
version alike — and for every zone list the two sets returned by
`get_conflicts` are disjoint and their union is (by identity membership) the
full de-duplicated entry set across all zones. -/
theorem claim_C1 (rel : RelationData) (zones : List Zone) :
    ((create_dns_record_provider_data rel).map (fun s => s.uuid) =
        (flatEntries rel).map (fun e => e.uuid) ∧
      (bind_create_dns_record_provider_data rel).map (fun s => s.uuid) =
        (flatEntries rel).map (fun e => e.uuid) ∧
      (∀ s ∈ create_dns_record_provider_data rel,
        s.status = Status.approved ∨ s.status = Status.conflict ∨ s.status = Status.unknown) ∧
      (∀ s ∈ bind_create_dns_record_provider_data rel,
        s.status = Status.approved ∨ s.status = Status.conflict ∨ s.status = Status.unknown)) ∧
    ((∀ x : DnsEntry,
        ¬(memE x (get_conflicts zones).1 = true ∧ memE x (get_conflicts zones).2 = true)) ∧
      (∀ x : DnsEntry,
        memE x (dedupE (zones.foldl (fun acc z => acc ++ z.entries) [])) =
          (memE x (get_conflicts zones).1 || memE x (get_conflicts zones).2))) := by
  constructor
  · refine ⟨?_, ?_, ?_, ?_⟩
    · simp [create_dns_record_provider_data, List.map_map]
      intro e _
      by_cases h1 : memE e (get_conflicts (dns_record_relations_data_to_zones rel)).1 <;>
        by_cases h2 : memE e (get_conflicts (dns_record_relations_data_to_zones rel)).2 <;>
          simp [h1, h2]
    · simp [bind_create_dns_record_provider_data, List.map_map]
      intro e _
      by_cases h1 : memE e (bind_get_conflicts (dns_record_relations_data_to_zones rel)).1 <;>
        by_cases h2 : memE e (bind_get_conflicts (dns_record_relations_data_to_zones rel)).2 <;>
          simp [h1, h2]
    · intro s hs
      simp only [create_dns_record_provider_data, List.mem_map] at hs
      obtain ⟨e, _, rfl⟩ := hs
      by_cases h1 : memE e (get_conflicts (dns_record_relations_data_to_zones rel)).1 <;>
        by_cases h2 : memE e (get_conflicts (dns_record_relations_data_to_zones rel)).2 <;>
          simp [h1, h2]
    · intro s hs
      simp only [bind_create_dns_record_provider_data, List.mem_map] at hs
      obtain ⟨e, _, rfl⟩ := hs
      by_cases h1 : memE e (bind_get_conflicts (dns_record_relations_data_to_zones rel)).1 <;>
        by_cases h2 : memE e (bind_get_conflicts (dns_record_relations_data_to_zones rel)).2 <;>
          simp [h1, h2]
  · constructor
    · rintro x ⟨h1, h2⟩
      simp only [get_conflicts, memE_iff] at h1
      obtain ⟨y, hy, hxy⟩ := h1
      rw [List.mem_filter] at hy
      have : memE y (get_conflicts zones).2 = true :=
        memE_of_sameE (sameE_symm hxy) h2
      simp only [get_conflicts] at this
      rw [this] at hy
      simp at hy
    · intro x
      cases hmem : memE x (dedupE (zones.foldl (fun acc z => acc ++ z.entries) [])) with
      | true =>
        rw [memE_iff] at hmem
        obtain ⟨y, hy, hxy⟩ := hmem
        by_cases hc : memE y (get_conflicts zones).2
        · rw [memE_of_sameE hxy hc, Bool.or_true]
        · have hcf : memE y (get_conflicts zones).2 = false := by
            cases h : memE y (get_conflicts zones).2 with
            | true => exact absurd h hc
            | false => rfl
          have : memE x (get_conflicts zones).1 = true := by
            rw [memE_iff]
            refine ⟨y, ?_, hxy⟩
            simp only [get_conflicts] at hcf ⊢
            rw [List.mem_filter]
            exact ⟨hy, by simp [hcf]⟩
          rw [this, Bool.true_or]
      | false =>
        cases h1 : memE x (get_conflicts zones).1 with
        | true =>
          rw [memE_iff] at h1
          obtain ⟨y, hy, hxy⟩ := h1
          simp only [get_conflicts, List.mem_filter] at hy
          have : memE x (dedupE (zones.foldl (fun acc z => acc ++ z.entries) [])) = true :=
            memE_iff.mpr ⟨y, hy.1, hxy⟩
          rw [this] at hmem; exact absurd hmem (by simp)
        | false =>
          cases h2 : memE x (get_conflicts zones).2 with
          | true =>
            rw [memE_iff] at h2
            obtain ⟨y, hy, hxy⟩ := h2
            simp only [get_conflicts, List.mem_filter] at hy
            have : memE x (dedupE (zones.foldl (fun acc z => acc ++ z.entries) [])) = true :=
              memE_iff.mpr ⟨y, hy.1, hxy⟩
            rw [this] at hmem; exact absurd hmem (by simp)
          | false => rfl

/-! ## Concrete example inputs used by witnesses and counterexamples -/

/-- Example entry: www.example.com A 1.1.1.1, request 1. -/
def exA : DnsEntry :=
  { domain := "example.com".toList, host_label := "www".toList, ttl := some 600,
    record_class := "IN".toList, record_type := "A".toList,
    record_data := "1.1.1.1".toList, uuid := 1 }

/-- Example entry: www.example.com A 2.2.2.2, request 2 (conflicts with
`exA`). -/
def exB : DnsEntry := { exA with record_data := "2.2.2.2".toList, uuid := 2 }

/-- Example entry: mail.example.com A 1.1.1.1, request 3 (conflicts with
nobody). -/
def exC : DnsEntry := { exA with host_label := "mail".toList, uuid := 3 }

/-- Example topology: this unit active, one standby. -/
def exTopo : Topology :=
  { active_unit_ip := "10.0.0.9".toList,
    standby_units_ip := ["10.1.1.1".toList],
    is_current_unit_active := true }

/-! ## C10: dns_data.has_changed -/

/-- Claim C10: `has_changed` returns true whenever the persisted state lacks
a "zones" key or its recorded zone set differs from the freshly computed
one; the topology comparison is consulted only when both the current
topology and the persisted "topology" key are present, in which case the
result is exactly the hash comparison — so a topology difference alone never
reports changed when either side is absent. -/
theorem claim_C10 (rel : RelationData) (topo : Option Topology) (st : LastValidState) :
    (st.zones = none → has_changed rel topo st = true) ∧
    (∀ zs, st.zones = some zs →
      zoneSetEqB zs (dns_record_relations_data_to_zones rel) = false →
      has_changed rel topo st = true) ∧
    ((topo = none ∨ st.topology = none) →
      ∀ zs, st.zones = some zs →
      zoneSetEqB zs (dns_record_relations_data_to_zones rel) = true →
      has_changed rel topo st = false) ∧
    (∀ t u zs, topo = some t → st.topology = some u → st.zones = some zs →
      zoneSetEqB zs (dns_record_relations_data_to_zones rel) = true →
      has_changed rel topo st = decide (topoHash t ≠ topoHash u)) := by
  refine ⟨?_, ?_, ?_, ?_⟩
  · intro h; simp [has_changed, h]
  · intro zs hzs hne; simp [has_changed, hzs, hne]
  · rintro habs zs hzs heq
    simp only [has_changed, hzs, heq, Bool.not_true, Bool.false_eq_true, if_false]
    rcases habs with h | h
    · rw [h]
    · rw [h]; rcases topo <;> rfl
  · intro t u zs ht hu hzs heq
    simp only [has_changed, hzs, heq, ht, hu, Bool.not_true, Bool.false_eq_true, if_false]
    by_cases h : topoHash t = topoHash u <;> simp [h]

/-- Witness for C10 at a concrete input: persisted state with no "zones"
key is reported as changed. -/
theorem claim_C10_witness :
    has_changed [[exA]] none { zones := none, topology := none } = true :=
  (claim_C10 [[exA]] none { zones := none, topology := none }).1 rfl

/-! ## C7: conflicts block all writes and the reload -/

/-- Claim C7: when the conflicting set is non-empty,
`update_zonefiles_and_reload` performs no file operation and signals no
reload; the deployed configuration is returned unchanged. -/
theorem claim_C7 (fs : Fs) (rel : RelationData) (topo : Option Topology)
    (now : Nat) (serviceActive : Bool)
    (h : (bind_get_conflicts (dns_record_relations_data_to_zones rel)).2 ≠ []) :
    update_zonefiles_and_reload fs rel topo now serviceActive = (fs, false) ∧
      updateOps rel topo now = [] := by
  constructor
  · simp only [update_zonefiles_and_reload]
    rw [if_pos h]
  · simp only [updateOps]
    rw [if_pos h]

/-- Witness for C7: requests www A 1.1.1.1 and www A 2.2.2.2 conflict; the
pass leaves the store untouched and does not reload. -/
theorem claim_C7_witness :
    update_zonefiles_and_reload [(namedConfLocal, [])] [[exA, exB]] (some exTopo) 600 true =
        ([(namedConfLocal, [])], false) ∧
      updateOps [[exA, exB]] (some exTopo) 600 = [] :=
  claim_C7 [(namedConfLocal, [])] [[exA, exB]] (some exTopo) 600 true (by decide)

/-! ## C3: rendering is not a function of the entry set -/

/-- Equality of entry collections as identity sets (mutual membership). -/
def entrySetEqB (a b : List DnsEntry) : Bool :=
  a.all (fun e => memE e b) && b.all (fun e => memE e a)

/-- Equality of string collections as unordered sets. -/
def strSetEqB (a b : List Str) : Bool :=
  (a.all fun s => b.any fun t => decide (t = s)) &&
    (b.all fun s => a.any fun t => decide (t = s))

/-- Claim C3 fails on the code: the zone renderer emits one record line per
entry by iterating the zone's entry set with no sort
(src/bind.py:420-426), so the rendered bytes depend on the iteration order
of an unordered hash set rather than only on the entry set.  Concretely,
submitting the same two records of example.com in the two possible orders
yields the same entry set but different zone-file text (the model renders
set iteration in insertion order; CPython's set iteration order likewise
depends on insertion history and on the per-process string hash seed, not
on the set's contents). -/
theorem claim_C3_code_bug :
    entrySetEqB (flatEntries [[exA, exC]]) (flatEntries [[exC, exA]]) = true ∧
    zones_to_files_content (dns_record_relations_data_to_zones [[exA, exC]]) 600 ≠
      zones_to_files_content (dns_record_relations_data_to_zones [[exC, exA]]) 600 := by
  decide

/-! ## C4: the ACL-mismatch path of the change detector -/

/-- The zone list, deployed store and changed topology of scenario D: the
deployed zone file carries the current entry-set hash (entries unchanged),
the deployed `named.conf.local` was rendered for the old one-standby
topology, and the current topology has gained a second standby. -/
def zonesC4 : List Zone := dns_record_relations_data_to_zones [[exA, exC]]

/-- Topology after a standby joined (scenario D). -/
def exTopo2 : Topology :=
  { exTopo with standby_units_ip := ["10.1.1.1".toList, "10.2.2.2".toList] }

/-- Deployed store for scenario D. -/
def fsC4 : Fs :=
  [(dbFile "example.com".toList, ((zones_to_files_content zonesC4 600).headD ([], [])).2),
   (namedConfLocal, generate_named_conf_local ["example.com".toList] (some exTopo))]

/-- Claim C4 fails on the code: with every zone's entries unchanged, the
unit active, and the deployed allow-transfer set differing (as an unordered
set) from the topology's standby set, `has_a_zone_changed` still returns
False.  The final comparison of src/bind.py:314-317 compares the results of
two `list.sort()` calls; `list.sort()` returns `None`, so the comparison is
`None != None`, which is always `False` — the ACL-mismatch path can never
report a change. -/
theorem claim_C4_code_bug :
    has_a_zone_changed fsC4 [[exA, exC]] (some exTopo2) = .ok false ∧
    strSetEqB
      (get_secondaries_ip_from_conf
        (generate_named_conf_local ["example.com".toList] (some exTopo)))
      exTopo2.standby_units_ip = false := by
  decide

/-! ## C5: missing or unparsable deployed metadata -/

/-- The deployed-metadata failure modes that the zone loop of
`has_a_zone_changed` absorbs: the zone's file is absent
(`FileNotFoundError`), or its metadata is token-malformed
(`InvalidZoneFileMetadataError`) or empty (`EmptyZoneFileMetadataError`). -/
def zoneBadMeta (fs : Fs) (z : Zone) : Bool :=
  match lookupFs fs (dbFile z.domain) with
  | none => true
  | some c =>
    decide (get_zonefile_metadata c = .error .invalid) ||
      decide (get_zonefile_metadata c = .error .empty)

theorem hashCheckZone_of_badMeta {fs : Fs} {z : Zone} (h : zoneBadMeta fs z = true) :
    hashCheckZone fs z = .ok true := by
  unfold zoneBadMeta at h
  unfold hashCheckZone
  cases hl : lookupFs fs (dbFile z.domain) with
  | none => rfl
  | some c =>
    rw [hl] at h
    simp only [Bool.or_eq_true, decide_eq_true_eq] at h
    rcases h with h | h <;> simp [h]

theorem zonesChangedLoop_ok_true {fs : Fs} {zs : List Zone}
    (hok : ∀ z ∈ zs, (hashCheckZone fs z).isOk = true)
    (hbad : ∃ z ∈ zs, hashCheckZone fs z = .ok true) :
    zonesChangedLoop fs zs = .ok true := by
  induction zs with
  | nil => obtain ⟨z, hz, _⟩ := hbad; exact absurd hz (List.not_mem_nil z)
  | cons z rest ih =>
    cases h : hashCheckZone fs z with
    | error e =>
      have := hok z (List.mem_cons_self z rest)
      rw [h] at this
      exact absurd this (by simp [Except.isOk, Except.toBool])
    | ok b =>
      cases b with
      | true => simp [zonesChangedLoop, h]
      | false =>
        have hbad2 : ∃ w ∈ rest, hashCheckZone fs w = .ok true := by
          obtain ⟨w, hw, hwt⟩ := hbad
          rcases List.mem_cons.mp hw with rfl | hw2
          · rw [h] at hwt; exact absurd hwt (by simp)
          · exact ⟨w, hw2, hwt⟩
        have hok2 : ∀ w ∈ rest, (hashCheckZone fs w).isOk = true :=
          fun w hw => hok w (List.mem_cons_of_mem z hw)
        simp [zonesChangedLoop, h, ih hok2 hbad2]

/-- Claim C5, amended: when no zone's deployed metadata raises on parsing
(no duplicated metadata key, no non-integer HASH value — those errors
escape to the caller), a zone whose deployed file is missing, or whose
metadata is empty or token-malformed, makes `has_a_zone_changed` report
changed without error. -/
theorem claim_C5 (fs : Fs) (rel : RelationData) (topo : Option Topology)
    (hok : ∀ z ∈ dns_record_relations_data_to_zones rel, (hashCheckZone fs z).isOk = true)
    (hbad : ∃ z ∈ dns_record_relations_data_to_zones rel, zoneBadMeta fs z = true) :
    has_a_zone_changed fs rel topo = .ok true := by
  have hloop : zonesChangedLoop fs (dns_record_relations_data_to_zones rel) = .ok true := by
    refine zonesChangedLoop_ok_true hok ?_
    obtain ⟨z, hz, hb⟩ := hbad
    exact ⟨z, hz, hashCheckZone_of_badMeta hb⟩
  simp [has_a_zone_changed, hloop]

/-- Witness for the amended C5: with an empty deployed store the zone file
of example.com is missing and the detector reports changed without error. -/
theorem claim_C5_witness : has_a_zone_changed [] [[exA]] none = .ok true :=
  claim_C5 [] [[exA]] none (by decide) (by decide)

/-- A deployed zone file for example.com whose metadata repeats a key. -/
def fsDupMeta : Fs :=
  [(dbFile "example.com".toList, "$ORIGIN example.com.; HASH:1 HASH:2\n".toList)]

/-- Claim C5 fails on the code as stated: a deployed zone file whose
metadata cannot be parsed because a key repeats makes
`_get_zonefile_metadata` raise `DuplicateMetadataEntryError`
(src/bind.py:513-514), which is not in the except clause of
`has_a_zone_changed` (src/bind.py:297-301) and so propagates to the caller
instead of the zone being treated as changed. -/
theorem claim_C5_counterexample :
    has_a_zone_changed fsDupMeta [[exA]] none = .error .dupMeta := by decide

/-! ## Store lemmas -/

theorem find?_update_ne (fs : Fs) (n m : Str) (c : Str) (h : m ≠ n) :
    List.find? (fun q => q.1 = m) (fs.map (fun p => if p.1 = n then (p.1, c) else p)) =
      List.find? (fun q => q.1 = m) fs := by
  induction fs with
  | nil => rfl
  | cons p rest ih =>
    simp only [List.map_cons]
    by_cases hp : p.1 = n
    · rw [if_pos hp]
      have h1 : (decide (p.1 = m)) = false := by
        simp only [decide_eq_false_iff_not]
        intro hh; rw [hp] at hh; exact h hh.symm
      rw [List.find?_cons, List.find?_cons]
      simp only [h1, ih]
    · rw [if_neg hp]
      rw [List.find?_cons, List.find?_cons]
      cases hm : (decide (p.1 = m)) <;> simp only [ih]

theorem lookupFs_fsWrite_ne (fs : Fs) (n m c : Str) (h : m ≠ n) :
    lookupFs (fsWrite fs n c) m = lookupFs fs m := by
  unfold fsWrite lookupFs
  cases hany : fs.any (fun p => p.1 = n) with
  | true =>
    rw [if_pos rfl]
    rw [find?_update_ne fs n m c h]
  | false =>
    rw [if_neg Bool.false_ne_true]
    rw [List.find?_append]
    have hone : List.find? (fun q => q.1 = m) [(n, c)] = none := by
      rw [List.find?_cons, List.find?_nil]
      have h2 : (decide ((n, c).1 = m)) = false := by
        simp only [decide_eq_false_iff_not]
        exact fun hh => h hh.symm
      simp only [h2]
    rw [hone]
    cases List.find? (fun q => q.1 = m) fs <;> rfl

theorem lookupFs_fsWrite_self (fs : Fs) (n c : Str) :
    lookupFs (fsWrite fs n c) n = some c := by
  unfold fsWrite lookupFs
  cases hany : fs.any (fun p => p.1 = n) with
  | true =>
    rw [if_pos rfl]
    induction fs with
    | nil => simp at hany
    | cons p rest ih =>
      simp only [List.map_cons]
      by_cases hp : p.1 = n
      · rw [if_pos hp]
        rw [List.find?_cons]
        have h1 : (decide ((p.1, c).1 = n)) = true := by simp [hp]
        simp only [h1]
      · rw [if_neg hp]
        rw [List.find?_cons]
        have h1 : (decide (p.1 = n)) = false := by simp [hp]
        simp only [h1]
        simp only [List.any_cons, Bool.or_eq_true, decide_eq_true_eq] at hany
        rcases hany with hh | hh
        · exact absurd hh hp
        · exact ih (by simp [hh])
  | false =>
    rw [if_neg Bool.false_ne_true]
    rw [List.find?_append]
    have hnone : List.find? (fun q => q.1 = n) fs = none := by
      rw [List.find?_eq_none]
      intro p hp
      simp only [decide_eq_true_eq]
      intro hh
      have hTrue : (List.any fs fun q => decide (q.1 = n)) = true :=
        List.any_eq_true.mpr ⟨p, hp, by exact decide_eq_true hh⟩
      rw [hany] at hTrue
      exact Bool.false_ne_true hTrue
    rw [hnone]
    rw [List.find?_cons]
    simp

/-! ## C6: failures before the move phase -/

/-- The number of operations `update_zonefiles_and_reload` performs before
it starts moving staged files into the live directory: one direct live
write of the service zone, the staged zone files (active unit only), and
the staged `named.conf.local`. -/
def stagedOpCount (rel : RelationData) (topology : Option Topology) (_now : Nat) : Nat :=
  let zones := dns_record_relations_data_to_zones rel
  let parts := bind_get_conflicts zones
  if parts.2 ≠ [] then 0
  else 2 + (if topoActive topology then zones.length else 0)

theorem applyOps_live_frame (ops : List FileOp) (st : FsState)
    (hops : ∀ op ∈ ops,
      (∃ n c, op = FileOp.writeTemp n c) ∨ ∃ c, op = FileOp.writeLive dbServiceFile c) :
    ∀ name, name ≠ dbServiceFile →
      lookupFs (applyOps st ops).live name = lookupFs st.live name := by
  induction ops generalizing st with
  | nil => intro name _; rfl
  | cons op rest ih =>
    intro name hname
    have hop := hops op (List.mem_cons_self op rest)
    have hrest : ∀ o ∈ rest,
        (∃ n c, o = FileOp.writeTemp n c) ∨ ∃ c, o = FileOp.writeLive dbServiceFile c :=
      fun o ho => hops o (List.mem_cons_of_mem op ho)
    rcases hop with ⟨n, c, rfl⟩ | ⟨c, rfl⟩
    · show lookupFs (applyOps (applyOp st (FileOp.writeTemp n c)) rest).live name = _
      rw [ih (applyOp st (FileOp.writeTemp n c)) hrest name hname]
      rfl
    · show lookupFs (applyOps (applyOp st (FileOp.writeLive dbServiceFile c)) rest).live name = _
      rw [ih (applyOp st (FileOp.writeLive dbServiceFile c)) hrest name hname]
      exact lookupFs_fsWrite_ne st.live dbServiceFile name c hname

/-- Claim C6, amended: a failure at any point of the pass before the move
phase leaves every file of the live configuration directory unchanged
except `db.service.test` — the service-test zone file is written directly
to the live directory at the start of the staging block
(src/bind.py:206-212), before the zone and configuration renders, so it is
not covered by the staging discipline. -/
theorem claim_C6 (fs : Fs) (rel : RelationData) (topo : Option Topology) (now k : Nat)
    (hk : k ≤ stagedOpCount rel topo now) :
    ∀ name, name ≠ dbServiceFile →
      lookupFs (liveAfterSteps fs rel topo now k) name = lookupFs fs name := by
  intro name hname
  unfold liveAfterSteps
  refine (applyOps_live_frame _ _ ?_ name hname).trans rfl
  intro op hop
  unfold updateOps at hop
  unfold stagedOpCount at hk
  by_cases hconf :
      (bind_get_conflicts (dns_record_relations_data_to_zones rel)).2 ≠ []
  · rw [if_pos hconf] at hop
    simp at hop
  · rw [if_neg hconf] at hop
    rw [if_neg hconf] at hk
    set zones := dns_record_relations_data_to_zones rel with hz
    set zoneWrites :=
      (if topoActive topo then
        (zones_to_files_content zones now).map (fun p => FileOp.writeTemp (dbFile p.1) p.2)
      else []) with hzw
    set confWrite :=
      FileOp.writeTemp namedConfLocal
        (generate_named_conf_local (zones.map Zone.domain) topo) with hcw
    set moves :=
      ((if topoActive topo then
        (zones_to_files_content zones now).map (fun p => dbFile p.1)
      else []) ++ [namedConfLocal]).map FileOp.moveToLive with hmv
    have hlen : zoneWrites.length = if topoActive topo then zones.length else 0 := by
      rw [hzw]
      by_cases ha : topoActive topo <;> simp [ha, zones_to_files_content]
    have hsplit :
        (FileOp.writeLive dbServiceFile (zoneServiceText (now / 60)) ::
            zoneWrites ++ [confWrite] ++ moves).take k =
          (FileOp.writeLive dbServiceFile (zoneServiceText (now / 60)) ::
            zoneWrites ++ [confWrite]).take k := by
      rw [show FileOp.writeLive dbServiceFile (zoneServiceText (now / 60)) ::
            zoneWrites ++ [confWrite] ++ moves =
          (FileOp.writeLive dbServiceFile (zoneServiceText (now / 60)) ::
            zoneWrites ++ [confWrite]) ++ moves by simp]
      refine List.take_append_of_le_length ?_
      simp only [List.length_cons, List.length_append, List.length_cons, List.length_nil,
        hlen]
      omega
    rw [hsplit] at hop
    have hop2 := List.take_subset k _ hop
    rcases List.mem_cons.mp hop2 with rfl | hop3
    · exact Or.inr ⟨_, rfl⟩
    · rcases List.mem_append.mp hop3 with hop4 | hop4
      · rw [hzw] at hop4
        by_cases ha : topoActive topo
        · rw [if_pos ha] at hop4
          obtain ⟨p, _, rfl⟩ := List.mem_map.mp hop4
          exact Or.inl ⟨_, _, rfl⟩
        · rw [if_neg ha] at hop4
          simp at hop4
      · rcases List.mem_singleton.mp hop4 with rfl
        exact Or.inl ⟨_, _, rfl⟩

/-- Witness for the amended C6: stopping after the first three operations
of an active-unit single-zone pass (the service write and both staged
renders, nothing moved yet) leaves the pre-existing `named.conf.local`
untouched. -/
theorem claim_C6_witness :
    lookupFs (liveAfterSteps [(namedConfLocal, ['x'])] [[exA]] (some exTopo) 600 3)
        namedConfLocal = lookupFs [(namedConfLocal, ['x'])] namedConfLocal :=
  claim_C6 [(namedConfLocal, ['x'])] [[exA]] (some exTopo) 600 3 (by decide)
    namedConfLocal (by decide)

/-- Claim C6 fails on the code as stated: executing only the first
operation of the pass — a point strictly before any staged file is moved —
already mutates the deployed configuration directory, because the
service-test zone file is written directly to it (src/bind.py:206-212)
rather than staged. -/
theorem claim_C6_counterexample :
    ((updateOps [[exA]] (some exTopo) 600).take 1).all
        (fun op => match op with | FileOp.moveToLive _ => false | _ => true) = true ∧
      liveAfterSteps [] [[exA]] (some exTopo) 600 1 ≠ [] := by decide

/-! ## C8: grouping characterization -/

theorem memE_filter (x : DnsEntry) (p : DnsEntry → Bool) (l : List DnsEntry) :
    memE x (l.filter p) = l.any (fun e => p e && sameE x e) := by
  simp [memE, List.any_filter]

theorem groupStep_spec (acc : List (Str × List DnsEntry)) (e : DnsEntry)
    (processed : List DnsEntry)
    (hnodup : (acc.map Prod.fst).Nodup)
    (hmem : ∀ d, d ∈ acc.map Prod.fst ↔ d ∈ processed.map DnsEntry.domain)
    (hval : ∀ p ∈ acc, p.2 = processed.filter (fun x => x.domain = p.1)) :
    ((groupStep acc e).map Prod.fst).Nodup ∧
    (∀ d, d ∈ (groupStep acc e).map Prod.fst ↔
      d ∈ (processed ++ [e]).map DnsEntry.domain) ∧
    (∀ p ∈ groupStep acc e, p.2 = (processed ++ [e]).filter (fun x => x.domain = p.1)) := by
  unfold groupStep
  by_cases hin : acc.any (fun p => p.1 = e.domain)
  · rw [if_pos hin]
    have hkeys :
        ((acc.map (fun p => if p.1 = e.domain then (p.1, p.2 ++ [e]) else p)).map Prod.fst) =
          acc.map Prod.fst := by
      rw [List.map_map]
      apply List.map_congr_left
      intro p _
      by_cases hp : p.1 = e.domain <;> simp [hp]
    have hed : e.domain ∈ acc.map Prod.fst := by
      simp only [List.any_eq_true, decide_eq_true_eq] at hin
      obtain ⟨p, hp, hpe⟩ := hin
      exact List.mem_map.mpr ⟨p, hp, hpe⟩
    refine ⟨by rw [hkeys]; exact hnodup, ?_, ?_⟩
    · intro d
      rw [hkeys]
      simp only [List.map_append, List.mem_append, List.map_cons, List.map_nil,
        List.mem_singleton]
      constructor
      · intro h; exact Or.inl ((hmem d).mp h)
      · rintro (h | h)
        · exact (hmem d).mpr h
        · rw [h]; exact hed
    · intro p' hp'
      obtain ⟨p, hp, rfl⟩ := List.mem_map.mp hp'
      by_cases hpd : p.1 = e.domain
      · rw [if_pos hpd]
        rw [List.filter_append]
        have hfe : List.filter (fun x => decide (x.domain = (p.1, p.2 ++ [e]).1)) [e] = [e] := by
          simp [hpd]
        simp only [hfe]
        have := hval p hp
        simp only [this]
      · rw [if_neg hpd]
        rw [List.filter_append]
        have hfe : List.filter (fun x => decide (x.domain = p.1)) [e] = [] := by
          simp only [List.filter_cons, List.filter_nil]
          have : (decide (e.domain = p.1)) = false := by
            simp only [decide_eq_false_iff_not]
            intro hh; exact hpd hh.symm
          simp [this]
        rw [hfe, List.append_nil]
        exact hval p hp
  · rw [if_neg hin]
    have hed : e.domain ∉ acc.map Prod.fst := by
      intro h
      obtain ⟨p, hp, hpe⟩ := List.mem_map.mp h
      have : acc.any (fun p => p.1 = e.domain) = true :=
        List.any_eq_true.mpr ⟨p, hp, by simp [hpe]⟩
      exact hin this
    refine ⟨?_, ?_, ?_⟩
    · rw [List.map_append]
      rw [List.nodup_append]
      refine ⟨hnodup, by simp, ?_⟩
      intro d hd
      simp only [List.map_cons, List.map_nil, List.mem_singleton]
      intro hd2
      rw [hd2] at hd
      exact hed hd
    · intro d
      simp only [List.map_append, List.mem_append, List.map_cons, List.map_nil,
        List.mem_singleton]
      constructor
      · rintro (h | h)
        · exact Or.inl ((hmem d).mp h)
        · exact Or.inr h
      · rintro (h | h)
        · exact Or.inl ((hmem d).mpr h)
        · exact Or.inr h
    · intro p' hp'
      rcases List.mem_append.mp hp' with hp | hp
      · have hd : p'.1 ≠ e.domain := by
          intro hh
          exact hed (hh ▸ List.mem_map.mpr ⟨p', hp, rfl⟩)
        rw [List.filter_append]
        have hfe : List.filter (fun x => decide (x.domain = p'.1)) [e] = [] := by
          simp only [List.filter_cons, List.filter_nil]
          have : (decide (e.domain = p'.1)) = false := by
            simp only [decide_eq_false_iff_not]
            intro hh; exact hd hh.symm
          simp [this]
        rw [hfe, List.append_nil]
        exact hval p' hp
      · rcases List.mem_singleton.mp hp with rfl
        rw [List.filter_append]
        have hfp : List.filter (fun x => decide (x.domain = (e.domain, [e]).1)) processed = [] := by
          rw [List.filter_eq_nil_iff]
          intro a ha
          simp only [decide_eq_true_eq]
          intro hh
          exact hed ((hmem e.domain).mpr (List.mem_map.mpr ⟨a, ha, hh⟩))
        rw [hfp, List.nil_append]
        simp

theorem groupFold_spec (l : List DnsEntry) (processed : List DnsEntry)
    (acc : List (Str × List DnsEntry))
    (hnodup : (acc.map Prod.fst).Nodup)
    (hmem : ∀ d, d ∈ acc.map Prod.fst ↔ d ∈ processed.map DnsEntry.domain)
    (hval : ∀ p ∈ acc, p.2 = processed.filter (fun x => x.domain = p.1)) :
    ((l.foldl groupStep acc).map Prod.fst).Nodup ∧
    (∀ d, d ∈ (l.foldl groupStep acc).map Prod.fst ↔
      d ∈ (processed ++ l).map DnsEntry.domain) ∧
    (∀ p ∈ l.foldl groupStep acc,
      p.2 = (processed ++ l).filter (fun x => x.domain = p.1)) := by
  induction l generalizing processed acc with
  | nil =>
    refine ⟨hnodup, ?_, ?_⟩
    · intro d; rw [List.append_nil]; exact hmem d
    · intro p hp; rw [List.append_nil]; exact hval p hp
  | cons e rest ih =>
    obtain ⟨h1, h2, h3⟩ := groupStep_spec acc e processed hnodup hmem hval
    have := ih (processed ++ [e]) (groupStep acc e) h1 h2 h3
    rw [List.append_assoc, List.singleton_append] at this
    exact this

theorem groupByDomain_spec (l : List DnsEntry) :
    ((groupByDomain l).map Prod.fst).Nodup ∧
    (∀ d, d ∈ (groupByDomain l).map Prod.fst ↔ d ∈ l.map DnsEntry.domain) ∧
    (∀ p ∈ groupByDomain l, p.2 = l.filter (fun x => x.domain = p.1)) := by
  have := groupFold_spec l [] [] (by simp) (by simp) (by simp)
  rw [List.nil_append] at this
  exact this

theorem record_requirer_data_to_zones_spec (rrd : RequirerData) :
    ((record_requirer_data_to_zones rrd).map Zone.domain).Nodup ∧
    (∀ d, d ∈ (record_requirer_data_to_zones rrd).map Zone.domain ↔
      d ∈ rrd.map DnsEntry.domain) ∧
    (∀ z ∈ record_requirer_data_to_zones rrd, ∀ x,
      memE x z.entries = rrd.any (fun e => decide (e.domain = z.domain) && sameE x e)) := by
  obtain ⟨h1, h2, h3⟩ := groupByDomain_spec rrd
  have hkeys : (record_requirer_data_to_zones rrd).map Zone.domain =
      (groupByDomain rrd).map Prod.fst := by
    unfold record_requirer_data_to_zones
    rw [List.map_map]
    rfl
  refine ⟨by rw [hkeys]; exact h1, ?_, ?_⟩
  · intro d; rw [hkeys]; exact h2 d
  · intro z hz x
    obtain ⟨p, hp, rfl⟩ := List.mem_map.mp hz
    show memE x (dedupE p.2) = _
    rw [memE_dedupE, h3 p hp, memE_filter]

/-! ## C8: zone-merge characterization -/

theorem any_or_distrib {α : Type} (l : List α) (p q : α → Bool) :
    l.any (fun a => p a || q a) = (l.any p || l.any q) := by
  induction l with
  | nil => rfl
  | cons a t ih =>
    simp only [List.any_cons, ih]
    cases p a <;> cases q a <;> cases t.any p <;> cases t.any q <;> rfl

theorem any_and_const {α : Type} (l : List α) (p : α → Bool) (c : Bool) :
    l.any (fun a => p a && c) = (l.any p && c) := by
  induction l with
  | nil => rfl
  | cons a t ih =>
    simp only [List.any_cons, ih]
    cases p a <;> cases c <;> cases t.any p <;> rfl

theorem any_congr {α : Type} {l : List α} {p q : α → Bool}
    (h : ∀ a ∈ l, p a = q a) : l.any p = l.any q := by
  induction l with
  | nil => rfl
  | cons a t ih =>
    simp only [List.any_cons]
    rw [h a (List.mem_cons_self a t), ih (fun b hb => h b (List.mem_cons_of_mem a hb))]

/-- Membership of an entry (by identity) in the zone carrying the given
domain inside a zone list. -/
def zoneMem (zs : List Zone) (d : Str) (x : DnsEntry) : Bool :=
  zs.any (fun z => decide (z.domain = d) && memE x z.entries)

theorem mergeZone_keys (zs : List Zone) (nz : Zone) :
    (mergeZone zs nz).map Zone.domain =
      if nz.domain ∈ zs.map Zone.domain then zs.map Zone.domain
      else zs.map Zone.domain ++ [nz.domain] := by
  unfold mergeZone
  by_cases hin : zs.any (fun z => z.domain = nz.domain)
  · rw [if_pos hin]
    have hmem : nz.domain ∈ zs.map Zone.domain := by
      simp only [List.any_eq_true, decide_eq_true_eq] at hin
      obtain ⟨z, hz, hzd⟩ := hin
      exact List.mem_map.mpr ⟨z, hz, hzd⟩
    rw [if_pos hmem, List.map_map]
    apply List.map_congr_left
    intro z _
    by_cases hz : z.domain = nz.domain <;> simp [hz]
  · rw [if_neg hin]
    have hmem : nz.domain ∉ zs.map Zone.domain := by
      intro h
      obtain ⟨z, hz, hzd⟩ := List.mem_map.mp h
      exact hin (List.any_eq_true.mpr ⟨z, hz, by simp [hzd]⟩)
    rw [if_neg hmem, List.map_append]
    rfl

theorem mergeZone_nodup {zs : List Zone} (nz : Zone)
    (h : (zs.map Zone.domain).Nodup) : ((mergeZone zs nz).map Zone.domain).Nodup := by
  rw [mergeZone_keys]
  by_cases hin : nz.domain ∈ zs.map Zone.domain
  · rw [if_pos hin]; exact h
  · rw [if_neg hin]
    rw [List.nodup_append]
    refine ⟨h, by simp, ?_⟩
    intro d hd
    simp only [List.mem_singleton]
    intro hd2
    rw [hd2] at hd
    exact hin hd

theorem zoneMem_mergeZone (zs : List Zone) (nz : Zone) (d : Str) (x : DnsEntry) :
    zoneMem (mergeZone zs nz) d x =
      (zoneMem zs d x || (decide (nz.domain = d) && memE x nz.entries)) := by
  unfold zoneMem mergeZone
  by_cases hin : zs.any (fun z => z.domain = nz.domain)
  · rw [if_pos hin]
    rw [List.any_map]
    have hmap : ∀ z ∈ zs,
        ((fun w => decide (w.domain = d) && memE x w.entries) ∘
          (fun z => if z.domain = nz.domain then
            { domain := z.domain, entries := unionE z.entries nz.entries } else z)) z =
        ((decide (z.domain = d) && memE x z.entries) ||
          (decide (z.domain = nz.domain) && (decide (nz.domain = d) && memE x nz.entries))) := by
      intro z _
      by_cases hz : z.domain = nz.domain
      · simp only [Function.comp, if_pos hz]
        show (decide (z.domain = d) && memE x (unionE z.entries nz.entries)) =
          ((decide (z.domain = d) && memE x z.entries) ||
            (decide (z.domain = nz.domain) && (decide (nz.domain = d) && memE x nz.entries)))
        rw [memE_unionE, hz]
        have hrefl : (decide (nz.domain = nz.domain)) = true := by simp
        rw [hrefl]
        cases decide (nz.domain = d) <;>
          cases memE x z.entries <;> cases memE x nz.entries <;> rfl
      · simp only [Function.comp, if_neg hz]
        have : (decide (z.domain = nz.domain)) = false := by simp [hz]
        rw [this]
        cases decide (z.domain = d) <;> cases memE x z.entries <;> rfl
    rw [any_congr hmap]
    rw [any_or_distrib]
    have : zs.any (fun z =>
        decide (z.domain = nz.domain) && (decide (nz.domain = d) && memE x nz.entries)) =
        (zs.any (fun z => decide (z.domain = nz.domain)) &&
          (decide (nz.domain = d) && memE x nz.entries)) :=
      any_and_const zs _ _
    rw [this, hin, Bool.true_and]
  · rw [if_neg hin]
    rw [List.any_append]
    simp [List.any_cons]

theorem foldMerge_spec (news : List Zone) (zs : List Zone)
    (hnodup : (zs.map Zone.domain).Nodup) :
    (((news.foldl mergeZone zs).map Zone.domain).Nodup) ∧
    (∀ d, d ∈ (news.foldl mergeZone zs).map Zone.domain ↔
      (d ∈ zs.map Zone.domain ∨ d ∈ news.map Zone.domain)) ∧
    (∀ d x, zoneMem (news.foldl mergeZone zs) d x =
      (zoneMem zs d x ||
        news.any (fun nz => decide (nz.domain = d) && memE x nz.entries))) := by
  induction news generalizing zs with
  | nil =>
    refine ⟨hnodup, ?_, ?_⟩
    · intro d; simp
    · intro d x; simp
  | cons nz rest ih =>
    obtain ⟨h1, h2, h3⟩ := ih (mergeZone zs nz) (mergeZone_nodup nz hnodup)
    refine ⟨h1, ?_, ?_⟩
    · intro d
      rw [List.foldl_cons] at *
      rw [h2 d, mergeZone_keys]
      by_cases hin : nz.domain ∈ zs.map Zone.domain
      · rw [if_pos hin]
        simp only [List.map_cons, List.mem_cons]
        constructor
        · rintro (h | h)
          · exact Or.inl h
          · exact Or.inr (Or.inr h)
        · rintro (h | h | h)
          · exact Or.inl h
          · rw [h]; exact Or.inl hin
          · exact Or.inr h
      · rw [if_neg hin]
        simp only [List.mem_append, List.mem_singleton, List.map_cons, List.mem_cons]
        tauto
    · intro d x
      rw [List.foldl_cons, h3 d x, zoneMem_mergeZone]
      rw [List.any_cons]
      cases zoneMem zs d x <;>
        cases hh : (decide (nz.domain = d) && memE x nz.entries) <;>
          cases rest.any (fun nz => decide (nz.domain = d) && memE x nz.entries) <;> rfl

theorem any_unique_domain {zs : List Zone} (hnodup : (zs.map Zone.domain).Nodup)
    {z : Zone} (hz : z ∈ zs) (f : Zone → Bool) :
    zs.any (fun w => decide (w.domain = z.domain) && f w) = f z := by
  induction zs with
  | nil => exact absurd hz (List.not_mem_nil z)
  | cons w rest ih =>
    rw [List.map_cons, List.nodup_cons] at hnodup
    rw [List.any_cons]
    rcases List.mem_cons.mp hz with rfl | hz2
    · have hrest : rest.any (fun v => decide (v.domain = z.domain) && f v) = false := by
        rw [List.any_eq_false]
        intro v hv
        simp only [Bool.and_eq_true, decide_eq_true_eq, not_and]
        intro hvd _
        exact hnodup.1 (hvd ▸ List.mem_map.mpr ⟨v, hv, rfl⟩)
      rw [hrest]
      simp
    · have hw : (decide (w.domain = z.domain)) = false := by
        simp only [decide_eq_false_iff_not]
        intro hh
        exact hnodup.1 (hh ▸ List.mem_map.mpr ⟨z, hz2, rfl⟩)
      rw [hw, Bool.false_and, Bool.false_or]
      exact ih hnodup.2 hz2

theorem rrdz_any (rrd : RequirerData) (d : Str) (x : DnsEntry) :
    (record_requirer_data_to_zones rrd).any
        (fun nz => decide (nz.domain = d) && memE x nz.entries) =
      rrd.any (fun e => decide (e.domain = d) && sameE x e) := by
  obtain ⟨h1, h2, h3⟩ := record_requirer_data_to_zones_spec rrd
  by_cases hd : d ∈ (record_requirer_data_to_zones rrd).map Zone.domain
  · obtain ⟨z, hz, hzd⟩ := List.mem_map.mp hd
    rw [← hzd]
    rw [any_unique_domain h1 hz (fun nz => memE x nz.entries)]
    exact h3 z hz x
  · have hL : (record_requirer_data_to_zones rrd).any
        (fun nz => decide (nz.domain = d) && memE x nz.entries) = false := by
      rw [List.any_eq_false]
      intro nz hnz
      simp only [Bool.and_eq_true, decide_eq_true_eq, not_and]
      intro hnzd _
      exact hd (hnzd ▸ List.mem_map.mpr ⟨nz, hnz, rfl⟩)
    have hR : rrd.any (fun e => decide (e.domain = d) && sameE x e) = false := by
      rw [List.any_eq_false]
      intro e he
      simp only [Bool.and_eq_true, decide_eq_true_eq, not_and]
      intro hed _
      exact hd ((h2 d).mpr (hed ▸ List.mem_map.mpr ⟨e, he, rfl⟩))
    rw [hL, hR]

theorem flatEntries_append (a b : RelationData) :
    flatEntries (a ++ b) = flatEntries a ++ flatEntries b := by
  unfold flatEntries
  rw [List.flatMap_append]

theorem flatEntries_singleton (rrd : RequirerData) : flatEntries [rrd] = rrd := by
  unfold flatEntries
  simp

theorem relFold_spec (rel : RelationData) (processed : RelationData) (zs : List Zone)
    (h1 : (zs.map Zone.domain).Nodup)
    (h2 : ∀ d, d ∈ zs.map Zone.domain ↔ d ∈ (flatEntries processed).map DnsEntry.domain)
    (h3 : ∀ d x, zoneMem zs d x =
      (flatEntries processed).any (fun e => decide (e.domain = d) && sameE x e)) :
    (((rel.foldl (fun zones rrd =>
        (record_requirer_data_to_zones rrd).foldl mergeZone zones) zs).map Zone.domain).Nodup) ∧
    (∀ d, d ∈ (rel.foldl (fun zones rrd =>
        (record_requirer_data_to_zones rrd).foldl mergeZone zones) zs).map Zone.domain ↔
      d ∈ (flatEntries (processed ++ rel)).map DnsEntry.domain) ∧
    (∀ d x, zoneMem (rel.foldl (fun zones rrd =>
        (record_requirer_data_to_zones rrd).foldl mergeZone zones) zs) d x =
      (flatEntries (processed ++ rel)).any (fun e => decide (e.domain = d) && sameE x e)) := by
  induction rel generalizing processed zs with
  | nil =>
    refine ⟨h1, ?_, ?_⟩
    · intro d; rw [List.append_nil]; exact h2 d
    · intro d x; rw [List.append_nil]; exact h3 d x
  | cons rrd rest ih =>
    obtain ⟨g1, g2, g3⟩ :=
      foldMerge_spec (record_requirer_data_to_zones rrd) zs h1
    obtain ⟨k1, k2, k3⟩ := record_requirer_data_to_zones_spec rrd
    have hm : ∀ d,
        d ∈ ((record_requirer_data_to_zones rrd).foldl mergeZone zs).map Zone.domain ↔
          d ∈ (flatEntries (processed ++ [rrd])).map DnsEntry.domain := by
      intro d
      rw [g2 d, flatEntries_append, flatEntries_singleton, List.map_append, List.mem_append]
      constructor
      · rintro (h | h)
        · exact Or.inl ((h2 d).mp h)
        · exact Or.inr ((k2 d).mp h)
      · rintro (h | h)
        · exact Or.inl ((h2 d).mpr h)
        · exact Or.inr ((k2 d).mpr h)
    have hz : ∀ d x,
        zoneMem ((record_requirer_data_to_zones rrd).foldl mergeZone zs) d x =
          (flatEntries (processed ++ [rrd])).any
            (fun e => decide (e.domain = d) && sameE x e) := by
      intro d x
      rw [g3 d x, flatEntries_append, flatEntries_singleton, List.any_append,
        h3 d x, rrdz_any]
    have := ih (processed ++ [rrd])
      ((record_requirer_data_to_zones rrd).foldl mergeZone zs) g1 hm hz
    rw [List.append_assoc, List.singleton_append] at this
    exact this

theorem relZones_spec (rel : RelationData) :
    ((dns_record_relations_data_to_zones rel).map Zone.domain).Nodup ∧
    (∀ d, d ∈ (dns_record_relations_data_to_zones rel).map Zone.domain ↔
      d ∈ (flatEntries rel).map DnsEntry.domain) ∧
    (∀ d x, zoneMem (dns_record_relations_data_to_zones rel) d x =
      (flatEntries rel).any (fun e => decide (e.domain = d) && sameE x e)) := by
  have := relFold_spec rel [] [] (by simp) (by intro d; simp [flatEntries])
    (by intro d x; simp [zoneMem, flatEntries])
  rw [List.nil_append] at this
  exact this

theorem perm_any {α : Type} {l1 l2 : List α} (h : l1.Perm l2) (f : α → Bool) :
    l1.any f = l2.any f := by
  cases h1 : l1.any f with
  | true =>
    obtain ⟨a, ha, hfa⟩ := List.any_eq_true.mp h1
    exact (List.any_eq_true.mpr ⟨a, h.mem_iff.mp ha, hfa⟩).symm
  | false =>
    cases h2 : l2.any f with
    | false => rfl
    | true =>
      obtain ⟨a, ha, hfa⟩ := List.any_eq_true.mp h2
      have := List.any_eq_true.mpr ⟨a, h.mem_iff.mpr ha, hfa⟩
      rw [h1] at this
      exact absurd this (by simp)

/-- Claim C8: the zone grouping produces domains without repetition (one
zone per distinct domain), exactly the submitted domains; the zone carrying
a domain holds by identity exactly the submitted entries of that domain
(`zoneMem` reads the entry set of the zone with the given domain, and every
zone's own entry set agrees with it); and the resulting set of zones is
unchanged under any reordering of the submissions and of the entries within
each submission (any permutation of the flattened submission list). -/
theorem claim_C8 (rel rel2 : RelationData)
    (hperm : (flatEntries rel).Perm (flatEntries rel2)) :
    ((dns_record_relations_data_to_zones rel).map Zone.domain).Nodup ∧
    (∀ d, d ∈ (dns_record_relations_data_to_zones rel).map Zone.domain ↔
      d ∈ (flatEntries rel).map DnsEntry.domain) ∧
    (∀ d x, zoneMem (dns_record_relations_data_to_zones rel) d x =
      (flatEntries rel).any (fun e => decide (e.domain = d) && sameE x e)) ∧
    (∀ z ∈ dns_record_relations_data_to_zones rel, ∀ x,
      memE x z.entries = zoneMem (dns_record_relations_data_to_zones rel) z.domain x) ∧
    (∀ d, d ∈ (dns_record_relations_data_to_zones rel).map Zone.domain ↔
      d ∈ (dns_record_relations_data_to_zones rel2).map Zone.domain) ∧
    (∀ d x, zoneMem (dns_record_relations_data_to_zones rel) d x =
      zoneMem (dns_record_relations_data_to_zones rel2) d x) := by
  obtain ⟨h1, h2, h3⟩ := relZones_spec rel
  obtain ⟨g1, g2, g3⟩ := relZones_spec rel2
  refine ⟨h1, h2, h3, ?_, ?_, ?_⟩
  · intro z hz x
    exact (any_unique_domain h1 hz (fun w => memE x w.entries)).symm
  · intro d
    rw [h2 d, g2 d]
    exact List.Perm.mem_iff (hperm.map DnsEntry.domain)
  · intro d x
    rw [h3 d x, g3 d x]
    exact perm_any hperm _

/-- Witness for C8 at a concrete input: the grouped domains of a
two-submission input with a repeated domain are without repetition. -/
theorem claim_C8_witness :
    ((dns_record_relations_data_to_zones [[exA], [exC]]).map Zone.domain).Nodup :=
  (claim_C8 [[exA], [exC]] [[exC], [exA]] (by decide)).1

/-! ## C2: the two conflict detectors -/

/-- Sharing of (domain, host_label, record_type): the conflict key of the
spec (§3). -/
def tripleEqB (a b : DnsEntry) : Bool :=
  decide (a.domain = b.domain ∧ a.host_label = b.host_label ∧ a.record_type = b.record_type)

/-- Does an entry participate in at least one conflicting pair within the
list (the canonical conflicting-set membership of the spec §4.2)? -/
def hasConIn (l : List DnsEntry) (y : DnsEntry) : Bool :=
  l.any (fun e => conflictB y e && !sameE y e)

/-- The flattened entry list of a zone list. -/
def allEntries (zones : List Zone) : List DnsEntry :=
  zones.foldl (fun acc z => acc ++ z.entries) []

/-- Entry lists de-duplicated by identity: all identity keys distinct. -/
def keyNodup (l : List DnsEntry) : Prop := (l.map DnsEntry.key).Nodup

theorem key_eq_iff {a b : DnsEntry} :
    a.key = b.key ↔ (a.domain = b.domain ∧ a.host_label = b.host_label ∧
      a.record_type = b.record_type ∧ a.record_data = b.record_data) := by
  simp [DnsEntry.key, Prod.ext_iff]

theorem conflictB_symm (a b : DnsEntry) : conflictB a b = conflictB b a := by
  unfold conflictB
  by_cases h1 : a.domain = b.domain <;>
    by_cases h2 : a.host_label = b.host_label <;>
      by_cases h3 : a.record_type = b.record_type <;>
        by_cases h4 : a.record_data = b.record_data <;>
          simp [h1, h2, h3, h4, eq_comm, Ne]

theorem conflict_not_sameE {a b : DnsEntry} (h : conflictB a b = true) :
    sameE a b = false := by
  unfold conflictB at h
  simp only [decide_eq_true_eq] at h
  simp only [sameE, decide_eq_false_iff_not, key_eq_iff]
  intro hk
  exact h.2.2.2 hk.2.2.2

theorem tripleEq_of_conflict {a b : DnsEntry} (h : conflictB a b = true) :
    tripleEqB a b = true := by
  unfold conflictB at h
  simp only [decide_eq_true_eq] at h
  simp [tripleEqB, h.1, h.2.1, h.2.2.1]

theorem conflict_of_tripleEq {a b : DnsEntry} (ht : tripleEqB a b = true)
    (hk : a.key ≠ b.key) : conflictB a b = true := by
  simp only [tripleEqB, decide_eq_true_eq] at ht
  simp only [conflictB, decide_eq_true_eq]
  refine ⟨ht.1, ht.2.1, ht.2.2, ?_⟩
  intro hd
  exact hk (key_eq_iff.mpr ⟨ht.1, ht.2.1, ht.2.2, hd⟩)

theorem tripleEqB_refl (a : DnsEntry) : tripleEqB a a = true := by simp [tripleEqB]

theorem tripleEq_trans {a b c : DnsEntry} (h1 : tripleEqB a b = true)
    (h2 : tripleEqB b c = true) : tripleEqB a c = true := by
  simp only [tripleEqB, decide_eq_true_eq] at *
  exact ⟨h1.1.trans h2.1, h1.2.1.trans h2.2.1, h1.2.2.trans h2.2.2⟩

theorem tripleEq_of_sameE {a b : DnsEntry} (h : sameE a b = true) :
    tripleEqB a b = true := by
  rw [sameE_iff, key_eq_iff] at h
  simp [tripleEqB, h.1, h.2.1, h.2.2.1]

theorem conflictB_key_left {a b c : DnsEntry} (h : sameE a b = true) :
    conflictB a c = conflictB b c := by
  rw [sameE_iff, key_eq_iff] at h
  unfold conflictB
  rw [h.1, h.2.1, h.2.2.1, h.2.2.2]

theorem sameE_key_left {a b c : DnsEntry} (h : sameE a b = true) :
    sameE a c = sameE b c := by
  rw [sameE_iff] at h
  unfold sameE
  rw [h]

theorem hasConIn_key {l : List DnsEntry} {a b : DnsEntry} (h : sameE a b = true) :
    hasConIn l a = hasConIn l b := by
  unfold hasConIn
  apply any_congr
  intro e _
  rw [conflictB_key_left h, sameE_key_left h]

/-- Key-invariant Boolean predicates on entries. -/
def KeyInv (q : DnsEntry → Bool) : Prop := ∀ a b, sameE a b = true → q a = q b

theorem any_addE {q : DnsEntry → Bool} (hq : KeyInv q) (s : List DnsEntry) (e : DnsEntry) :
    (addE s e).any q = (s.any q || q e) := by
  unfold addE
  by_cases hm : memE e s
  · rw [if_pos hm]
    cases hqe : q e with
    | false => simp
    | true =>
      obtain ⟨y, hy, hey⟩ := memE_iff.mp hm
      have : q y = true := by rw [← hq e y hey]; exact hqe
      rw [List.any_eq_true.mpr ⟨y, hy, this⟩]
      rfl
  · rw [if_neg hm]
    simp [List.any_append]

theorem any_foldl_addE {q : DnsEntry → Bool} (hq : KeyInv q) (l s : List DnsEntry) :
    (l.foldl addE s).any q = (s.any q || l.any q) := by
  induction l generalizing s with
  | nil => simp
  | cons e rest ih =>
    rw [List.foldl_cons, ih, any_addE hq, List.any_cons]
    cases s.any q <;> cases q e <;> cases rest.any q <;> rfl

theorem any_dedupE {q : DnsEntry → Bool} (hq : KeyInv q) (l : List DnsEntry) :
    (dedupE l).any q = l.any q := by
  unfold dedupE
  rw [any_foldl_addE hq]
  rfl

theorem sameE_key_right {a b x : DnsEntry} (h : sameE a b = true) :
    sameE x a = sameE x b := by
  cases hxa : sameE x a with
  | true => exact (sameE_trans hxa h).symm
  | false =>
    cases hxb : sameE x b with
    | true => exact absurd (sameE_trans hxb (sameE_symm h)) (by simp [hxa])
    | false => rfl

/-- Identity membership is a key-invariant predicate. -/
theorem memE_key {s : List DnsEntry} {a b : DnsEntry} (h : sameE a b = true) :
    memE a s = memE b s := by
  cases hb : memE b s with
  | true => exact memE_of_sameE h hb
  | false =>
    cases ha : memE a s with
    | true => exact absurd (memE_of_sameE (sameE_symm h) ha) (by simp [hb])
    | false => rfl

/-- Canonical membership of the pure conflict detector: an identity class
is conflicting iff one of its occurrences participates in a conflicting
pair, and non-conflicting iff it occurs and does not. -/
theorem get_conflicts_canonical (zones : List Zone) :
    (∀ x, memE x (get_conflicts zones).2 =
      (allEntries zones).any (fun y => sameE x y && hasConIn (allEntries zones) y)) ∧
    (∀ x, memE x (get_conflicts zones).1 =
      (allEntries zones).any (fun y => sameE x y && !hasConIn (allEntries zones) y)) := by
  have hinnerKI : ∀ y : DnsEntry, KeyInv (fun e => conflictB y e && !sameE y e) := by
    intro y a b hab
    dsimp only
    have h1 : conflictB y a = conflictB y b := by
      rw [conflictB_symm y a, conflictB_symm y b]
      exact conflictB_key_left hab
    have h2 : sameE y a = sameE y b := by
      cases hya : sameE y a with
      | true => exact (sameE_trans hya hab).symm
      | false =>
        cases hyb : sameE y b with
        | true => exact absurd (sameE_trans hyb (sameE_symm hab)) (by simp [hya])
        | false => rfl
    rw [h1, h2]
  have hpI : ∀ y, (dedupE (allEntries zones)).any (fun e => conflictB y e && !sameE y e) =
      hasConIn (allEntries zones) y := fun y => any_dedupE (hinnerKI y) _
  have hA : ∀ x, memE x (get_conflicts zones).2 =
      (allEntries zones).any (fun y => sameE x y && hasConIn (allEntries zones) y) := by
    intro x
    have e1 : (get_conflicts zones).2 =
        (dedupE (allEntries zones)).filter
          (fun entry => (dedupE (allEntries zones)).any
            (fun e => conflictB entry e && !sameE entry e)) := rfl
    rw [e1, memE_filter]
    have s1 : (dedupE (allEntries zones)).any
        (fun y => ((dedupE (allEntries zones)).any
          (fun e => conflictB y e && !sameE y e)) && sameE x y) =
        (dedupE (allEntries zones)).any
          (fun y => hasConIn (allEntries zones) y && sameE x y) := by
      apply any_congr
      intro y _
      dsimp only
      rw [hpI y]
    rw [s1]
    have s2 : (dedupE (allEntries zones)).any
        (fun y => hasConIn (allEntries zones) y && sameE x y) =
        (allEntries zones).any
          (fun y => hasConIn (allEntries zones) y && sameE x y) := by
      apply any_dedupE
      intro a b hab
      dsimp only
      rw [hasConIn_key hab, sameE_key_right hab]
    rw [s2]
    apply any_congr
    intro y _
    dsimp only
    cases hasConIn (allEntries zones) y <;> cases sameE x y <;> rfl
  refine ⟨hA, ?_⟩
  intro x
  have e1 : (get_conflicts zones).1 =
      (dedupE (allEntries zones)).filter
        (fun entry => !memE entry (get_conflicts zones).2) := rfl
  rw [e1, memE_filter]
  have s2 : (dedupE (allEntries zones)).any
      (fun y => (!memE y (get_conflicts zones).2) && sameE x y) =
      (allEntries zones).any
        (fun y => (!memE y (get_conflicts zones).2) && sameE x y) := by
    apply any_dedupE
    intro a b hab
    dsimp only
    rw [memE_key hab, sameE_key_right hab]
  rw [s2]
  apply any_congr
  intro y hy
  dsimp only
  have hmy : memE y (get_conflicts zones).2 = hasConIn (allEntries zones) y := by
    rw [hA y]
    cases hc : hasConIn (allEntries zones) y with
    | true => exact List.any_eq_true.mpr ⟨y, hy, by rw [sameE_refl y, hc]; rfl⟩
    | false =>
      rw [List.any_eq_false]
      intro w hw
      simp only [Bool.and_eq_true, not_and]
      intro hyw hcw
      have : hasConIn (allEntries zones) y = true := by
        rw [hasConIn_key hyw]; exact hcw
      rw [hc] at this
      exact absurd this (by simp)
  rw [hmy]
  cases hasConIn (allEntries zones) y <;> cases sameE x y <;> rfl

theorem tripleEqB_symm {a b : DnsEntry} (h : tripleEqB a b = true) :
    tripleEqB b a = true := by
  simp only [tripleEqB, decide_eq_true_eq] at *
  exact ⟨h.1.symm, h.2.1.symm, h.2.2.symm⟩

theorem conflictB_irrefl (a : DnsEntry) : conflictB a a = false := by
  simp [conflictB]

theorem scanConf_fold (entry : DnsEntry) (rem : List DnsEntry) (b : Bool)
    (cf : List DnsEntry) :
    (rem.foldl (fun acc e =>
        if conflictB entry e && !sameE entry e then (true, addE (addE acc.2 entry) e)
        else acc) (b, cf)).1 =
      (b || rem.any (fun e => conflictB entry e && !sameE entry e)) ∧
    (∀ x, memE x (rem.foldl (fun acc e =>
        if conflictB entry e && !sameE entry e then (true, addE (addE acc.2 entry) e)
        else acc) (b, cf)).2 =
      (memE x cf ||
        (rem.any (fun e => conflictB entry e && !sameE entry e) && sameE x entry) ||
        rem.any (fun e => (conflictB entry e && !sameE entry e) && sameE x e))) := by
  induction rem generalizing b cf with
  | nil => exact ⟨by simp, fun x => by simp⟩
  | cons e rem2 ih =>
    rw [List.foldl_cons]
    by_cases hp : (conflictB entry e && !sameE entry e) = true
    · rw [if_pos hp]
      obtain ⟨ih1, ih2⟩ := ih true (addE (addE cf entry) e)
      constructor
      · rw [ih1, List.any_cons, hp]
        cases b <;> rfl
      · intro x
        rw [ih2 x, memE_addE, memE_addE, List.any_cons, List.any_cons, hp]
        cases memE x cf <;> cases sameE x entry <;> cases sameE x e <;>
          cases rem2.any (fun e => conflictB entry e && !sameE entry e) <;>
            cases rem2.any (fun e => (conflictB entry e && !sameE entry e) && sameE x e) <;>
              rfl
    · rw [if_neg hp]
      have hp2 : (conflictB entry e && !sameE entry e) = false := by
        cases h : (conflictB entry e && !sameE entry e) with
        | true => exact absurd h hp
        | false => rfl
      obtain ⟨ih1, ih2⟩ := ih b cf
      constructor
      · rw [ih1, List.any_cons, hp2]
        rfl
      · intro x
        rw [ih2 x, List.any_cons, List.any_cons, hp2]
        cases memE x cf <;> cases sameE x entry <;> cases sameE x e <;>
          cases rem2.any (fun e => conflictB entry e && !sameE entry e) <;>
            cases rem2.any (fun e => (conflictB entry e && !sameE entry e) && sameE x e) <;>
              rfl

theorem scanConf_spec (entry : DnsEntry) (rem : List DnsEntry) (cf : List DnsEntry) :
    (scanConf entry rem cf).1 = rem.any (fun e => conflictB entry e && !sameE entry e) ∧
    (∀ x, memE x (scanConf entry rem cf).2 =
      (memE x cf ||
        (rem.any (fun e => conflictB entry e && !sameE entry e) && sameE x entry) ||
        rem.any (fun e => (conflictB entry e && !sameE entry e) && sameE x e))) := by
  obtain ⟨h1, h2⟩ := scanConf_fold entry rem false cf
  exact ⟨h1, h2⟩

theorem sameE_comm (a b : DnsEntry) : sameE a b = sameE b a := by
  simp [sameE, eq_comm]

/-- Invariant induction for the destructive working-list conflict detector:
with all identity keys distinct, processing the working list from its end
classifies every identity class by whether it participates in a conflicting
pair. -/
theorem getConflictsGo_spec (F : List DnsEntry) (hK : keyNodup F) :
    ∀ (S P nonconf conf : List DnsEntry),
    F = P ++ S →
    (∀ x, memE x nonconf = P.any (fun y => sameE x y && !hasConIn F y)) →
    (∀ x, memE x conf = F.any (fun y => sameE x y && hasConIn F y &&
        P.any (fun q => tripleEqB q y))) →
    (∀ x, memE x (getConflictsGo S nonconf conf).1 =
        F.any (fun y => sameE x y && !hasConIn F y)) ∧
    (∀ x, memE x (getConflictsGo S nonconf conf).2 =
        F.any (fun y => sameE x y && hasConIn F y)) := by
  intro S
  induction S with
  | nil =>
    intro P nonconf conf hF hnc hcf
    rw [List.append_nil] at hF
    subst hF
    constructor
    · intro x
      exact hnc x
    · intro x
      show memE x conf = _
      rw [hcf x]
      apply any_congr
      intro y hy
      dsimp only
      cases hs : sameE x y
      · rfl
      · cases hc : hasConIn F y
        · rfl
        · have ht : F.any (fun q => tripleEqB q y) = true :=
            List.any_eq_true.mpr ⟨y, hy, tripleEqB_refl y⟩
          rw [ht]
          rfl
  | cons entry rest ih =>
    intro P nonconf conf hF hnc hcf
    have hentryF : entry ∈ F := by
      rw [hF]; exact List.mem_append.mpr (Or.inr (List.mem_cons_self _ _))
    have hrestF : ∀ e ∈ rest, e ∈ F := by
      intro e he
      rw [hF]; exact List.mem_append.mpr (Or.inr (List.mem_cons_of_mem _ he))
    have hPF : ∀ q ∈ P, q ∈ F := by
      intro q hq
      rw [hF]; exact List.mem_append.mpr (Or.inl hq)
    have hFassoc : F = (P ++ [entry]) ++ rest := by
      rw [hF, List.append_assoc, List.singleton_append]
    have hKmid : entry.key ∉ (P.map DnsEntry.key ++ rest.map DnsEntry.key) := by
      have h2 : (F.map DnsEntry.key).Nodup := hK
      rw [hF, List.map_append, List.map_cons] at h2
      exact (List.nodup_cons.mp (List.nodup_middle.mp h2)).1
    have hkeyP : ∀ q ∈ P, q.key ≠ entry.key := by
      intro q hq h
      exact hKmid (List.mem_append.mpr (Or.inl (h ▸ List.mem_map.mpr ⟨q, hq, rfl⟩)))
    have hkeyR : ∀ e ∈ rest, e.key ≠ entry.key := by
      intro e he h
      exact hKmid (List.mem_append.mpr (Or.inr (h ▸ List.mem_map.mpr ⟨e, he, rfl⟩)))
    have hsplit : ∀ x, F.any (fun y => sameE x y && hasConIn F y &&
        (P ++ [entry]).any (fun q => tripleEqB q y)) =
        (F.any (fun y => sameE x y && hasConIn F y && P.any (fun q => tripleEqB q y)) ||
          F.any (fun y => sameE x y && hasConIn F y && tripleEqB entry y)) := by
      intro x
      rw [← any_or_distrib]
      apply any_congr
      intro y _
      dsimp only
      rw [List.any_append, List.any_cons, List.any_nil]
      cases sameE x y <;> cases hasConIn F y <;>
        cases P.any (fun q => tripleEqB q y) <;> cases tripleEqB entry y <;> rfl
    have hncPlus : hasConIn F entry = true →
        ∀ x, memE x nonconf = (P ++ [entry]).any (fun y => sameE x y && !hasConIn F y) := by
      intro hce x
      rw [List.any_append, List.any_cons, List.any_nil, hnc x, hce]
      cases P.any (fun y => sameE x y && !hasConIn F y) <;> cases sameE x entry <;> rfl
    cases hskip : memE entry conf with
    | true =>
      have h1 : memE entry conf = true := hskip
      rw [hcf entry] at h1
      obtain ⟨y0, hy0F, hy02⟩ := List.any_eq_true.mp h1
      simp only [Bool.and_eq_true, List.any_eq_true] at hy02
      obtain ⟨⟨hsey0, hcy0⟩, q0, hq0P, htq0⟩ := hy02
      have hce : hasConIn F entry = true := by
        rw [hasConIn_key hsey0]; exact hcy0
      have habs : ∀ x,
          F.any (fun y => sameE x y && hasConIn F y && tripleEqB entry y) = true →
            memE x conf = true := by
        intro x hx
        obtain ⟨y, hyF, hy2⟩ := List.any_eq_true.mp hx
        simp only [Bool.and_eq_true] at hy2
        obtain ⟨⟨hsxy, hcy⟩, htey⟩ := hy2
        rw [hcf x]
        refine List.any_eq_true.mpr ⟨y, hyF, ?_⟩
        dsimp only
        have hq0y : tripleEqB q0 y = true :=
          tripleEq_trans (tripleEq_trans htq0 (tripleEqB_symm (tripleEq_of_sameE hsey0))) htey
        have hPany : P.any (fun q => tripleEqB q y) = true :=
          List.any_eq_true.mpr ⟨q0, hq0P, hq0y⟩
        rw [hsxy, hcy, hPany]
        rfl
      have hcf2 : ∀ x, memE x conf = F.any (fun y => sameE x y && hasConIn F y &&
          (P ++ [entry]).any (fun q => tripleEqB q y)) := by
        intro x
        rw [hsplit x, ← hcf x]
        cases hex : F.any (fun y => sameE x y && hasConIn F y && tripleEqB entry y) with
        | true => rw [habs x hex]; rfl
        | false => rw [Bool.or_false]
      have hred : getConflictsGo (entry :: rest) nonconf conf =
          getConflictsGo rest nonconf conf := by
        simp only [getConflictsGo]
        rw [hskip, if_pos rfl]
      obtain ⟨ihA, ihB⟩ := ih (P ++ [entry]) nonconf conf hFassoc (hncPlus hce) hcf2
      rw [hred]
      exact ⟨ihA, ihB⟩
    | false =>
      have hnoP : ∀ q ∈ P, tripleEqB q entry = false := by
        intro q hq
        cases ht : tripleEqB q entry with
        | false => rfl
        | true =>
          have hcq : conflictB q entry = true := conflict_of_tripleEq ht (hkeyP q hq)
          have hce : hasConIn F entry = true := by
            refine List.any_eq_true.mpr ⟨q, hPF q hq, ?_⟩
            dsimp only
            rw [conflictB_symm entry q, hcq]
            have hs : sameE entry q = false := by
              rw [sameE_comm]
              exact conflict_not_sameE hcq
            rw [hs]
            rfl
          have hmem : memE entry conf = true := by
            rw [hcf entry]
            refine List.any_eq_true.mpr ⟨entry, hentryF, ?_⟩
            dsimp only
            rw [sameE_refl, hce]
            have hPany : P.any (fun q2 => tripleEqB q2 entry) = true :=
              List.any_eq_true.mpr ⟨q, hq, ht⟩
            rw [hPany]
            rfl
          rw [hskip] at hmem
          exact absurd hmem (by simp)
      have hs1 : (scanConf entry rest.reverse conf).1 =
          rest.any (fun e => conflictB entry e && !sameE entry e) := by
        rw [(scanConf_spec entry rest.reverse conf).1, List.any_reverse]
      have hs2 : ∀ x, memE x (scanConf entry rest.reverse conf).2 =
          (memE x conf ||
            (rest.any (fun e => conflictB entry e && !sameE entry e) && sameE x entry) ||
            rest.any (fun e => (conflictB entry e && !sameE entry e) && sameE x e)) := by
        intro x
        rw [(scanConf_spec entry rest.reverse conf).2 x, List.any_reverse, List.any_reverse]
      cases hfound : rest.any (fun e => conflictB entry e && !sameE entry e) with
      | true =>
        obtain ⟨e0, he0, hpe0⟩ := List.any_eq_true.mp hfound
        have hce : hasConIn F entry = true :=
          List.any_eq_true.mpr ⟨e0, hrestF e0 he0, hpe0⟩
        have himp1 : ∀ x, sameE x entry = true →
            F.any (fun y => sameE x y && hasConIn F y && tripleEqB entry y) = true := by
          intro x hsx
          refine List.any_eq_true.mpr ⟨entry, hentryF, ?_⟩
          dsimp only
          rw [hsx, hce, tripleEqB_refl]
          rfl
        have himp2 : ∀ x,
            rest.any (fun e => (conflictB entry e && !sameE entry e) && sameE x e) = true →
            F.any (fun y => sameE x y && hasConIn F y && tripleEqB entry y) = true := by
          intro x hx
          obtain ⟨e, he, h2⟩ := List.any_eq_true.mp hx
          simp only [Bool.and_eq_true] at h2
          obtain ⟨⟨hc, _⟩, hsxe⟩ := h2
          refine List.any_eq_true.mpr ⟨e, hrestF e he, ?_⟩
          dsimp only
          have hcee : hasConIn F e = true := by
            refine List.any_eq_true.mpr ⟨entry, hentryF, ?_⟩
            dsimp only
            have hc2 : conflictB e entry = true := by rw [conflictB_symm]; exact hc
            rw [hc2, conflict_not_sameE hc2]
            rfl
          rw [hsxe, hcee, tripleEq_of_conflict hc]
          rfl
        have himp3 : ∀ x,
            F.any (fun y => sameE x y && hasConIn F y && tripleEqB entry y) = true →
            (sameE x entry = true ∨
              rest.any (fun e => (conflictB entry e && !sameE entry e) && sameE x e) = true) := by
          intro x hx
          obtain ⟨y, hyF, hy2⟩ := List.any_eq_true.mp hx
          simp only [Bool.and_eq_true] at hy2
          obtain ⟨⟨hsxy, _⟩, htey⟩ := hy2
          rw [hF] at hyF
          rcases List.mem_append.mp hyF with hyP | hyS
          · exact absurd (hnoP y hyP) (by rw [tripleEqB_symm htey]; simp)
          · rcases List.mem_cons.mp hyS with rfl | hyR
            · exact Or.inl hsxy
            · have hkne : entry.key ≠ y.key := fun hh => hkeyR y hyR hh.symm
              have hcy : conflictB entry y = true := conflict_of_tripleEq htey hkne
              refine Or.inr (List.any_eq_true.mpr ⟨y, hyR, ?_⟩)
              dsimp only
              rw [hcy, conflict_not_sameE hcy, hsxy]
              rfl
        have hcf2 : ∀ x, memE x (scanConf entry rest.reverse conf).2 =
            F.any (fun y => sameE x y && hasConIn F y &&
              (P ++ [entry]).any (fun q => tripleEqB q y)) := by
          intro x
          rw [hs2 x, hfound, hsplit x, ← hcf x]
          rw [Bool.true_and]
          cases hC : memE x conf <;> cases hsx : sameE x entry <;>
            cases hRA : rest.any
              (fun e => (conflictB entry e && !sameE entry e) && sameE x e) <;>
            cases hEX : F.any (fun y => sameE x y && hasConIn F y && tripleEqB entry y) <;>
              first
                | rfl
                | (exact absurd (himp1 x hsx) (by rw [hEX]; simp))
                | (exact absurd (himp2 x hRA) (by rw [hEX]; simp))
                | (rcases himp3 x hEX with h | h
                   · exact absurd h (by rw [hsx]; simp)
                   · exact absurd h (by rw [hRA]; simp))
        have hred : getConflictsGo (entry :: rest) nonconf conf =
            getConflictsGo rest nonconf (scanConf entry rest.reverse conf).2 := by
          simp only [getConflictsGo]
          rw [hskip, if_neg Bool.false_ne_true, hs1, hfound, if_pos rfl]
        obtain ⟨ihA, ihB⟩ := ih (P ++ [entry]) nonconf
          (scanConf entry rest.reverse conf).2 hFassoc (hncPlus hce) hcf2
        rw [hred]
        exact ⟨ihA, ihB⟩
      | false =>
        have hcentry : hasConIn F entry = false := by
          show F.any (fun e => conflictB entry e && !sameE entry e) = false
          rw [List.any_eq_false] at hfound ⊢
          intro e heF
          rw [hF] at heF
          rcases List.mem_append.mp heF with heP | heS
          · simp only [Bool.and_eq_true, not_and]
            intro hc _
            have ht : tripleEqB e entry = true :=
              tripleEqB_symm (tripleEq_of_conflict hc)
            exact absurd (hnoP e heP) (by rw [ht]; simp)
          · rcases List.mem_cons.mp heS with rfl | heR
            · simp [conflictB_irrefl]
            · exact hfound e heR
        have hnc2 : ∀ x, memE x (addE nonconf entry) =
            (P ++ [entry]).any (fun y => sameE x y && !hasConIn F y) := by
          intro x
          rw [memE_addE, hnc x, List.any_append, List.any_cons, List.any_nil, hcentry]
          cases P.any (fun y => sameE x y && !hasConIn F y) <;> cases sameE x entry <;> rfl
        have hEXf : ∀ x,
            F.any (fun y => sameE x y && hasConIn F y && tripleEqB entry y) = false := by
          intro x
          rw [List.any_eq_false]
          intro y hyF
          simp only [Bool.and_eq_true, not_and]
          rintro ⟨_, hcy⟩ htey
          rw [hF] at hyF
          rcases List.mem_append.mp hyF with hyP | hyS
          · exact absurd (hnoP y hyP) (by rw [tripleEqB_symm htey]; simp)
          · rcases List.mem_cons.mp hyS with rfl | hyR
            · rw [hcentry] at hcy; exact absurd hcy (by simp)
            · have hkne : entry.key ≠ y.key := fun hh => hkeyR y hyR hh.symm
              have hcy2 : conflictB entry y = true := conflict_of_tripleEq htey hkne
              have : rest.any (fun e => conflictB entry e && !sameE entry e) = true := by
                refine List.any_eq_true.mpr ⟨y, hyR, ?_⟩
                dsimp only
                rw [hcy2, conflict_not_sameE hcy2]
                rfl
              rw [hfound] at this
              exact absurd this (by simp)
        have hcf2 : ∀ x, memE x conf =
            F.any (fun y => sameE x y && hasConIn F y &&
              (P ++ [entry]).any (fun q => tripleEqB q y)) := by
          intro x
          rw [hsplit x, ← hcf x, hEXf x, Bool.or_false]
        have hred : getConflictsGo (entry :: rest) nonconf conf =
            getConflictsGo rest (addE nonconf entry) conf := by
          simp only [getConflictsGo]
          rw [hskip, if_neg Bool.false_ne_true, hs1, hfound,
            if_neg Bool.false_ne_true]
        obtain ⟨ihA, ihB⟩ := ih (P ++ [entry]) (addE nonconf entry) conf
          hFassoc hnc2 hcf2
        rw [hred]
        exact ⟨ihA, ihB⟩

theorem bind_get_conflicts_canonical (zones : List Zone)
    (hK : keyNodup (allEntries zones)) :
    (∀ x, memE x (bind_get_conflicts zones).1 =
      (allEntries zones).any
        (fun y => sameE x y && !hasConIn (allEntries zones) y)) ∧
    (∀ x, memE x (bind_get_conflicts zones).2 =
      (allEntries zones).any
        (fun y => sameE x y && hasConIn (allEntries zones) y)) := by
  have hKF : keyNodup (allEntries zones).reverse := by
    show ((allEntries zones).reverse.map DnsEntry.key).Nodup
    rw [List.map_reverse]
    exact List.nodup_reverse.mpr hK
  have hconv : ∀ y, hasConIn (allEntries zones).reverse y = hasConIn (allEntries zones) y := by
    intro y
    show (allEntries zones).reverse.any _ = (allEntries zones).any _
    exact List.any_reverse
  have hcf0 : ∀ x, memE x ([] : List DnsEntry) =
      (allEntries zones).reverse.any (fun y => sameE x y &&
        hasConIn (allEntries zones).reverse y &&
        ([] : List DnsEntry).any (fun q => tripleEqB q y)) := by
    intro x
    have h0 : memE x ([] : List DnsEntry) = false := rfl
    rw [h0]
    symm
    rw [List.any_eq_false]
    intro y _
    simp
  obtain ⟨hA, hB⟩ := getConflictsGo_spec (allEntries zones).reverse hKF
    (allEntries zones).reverse [] [] [] (List.nil_append _).symm (fun x => rfl) hcf0
  constructor
  · intro x
    show memE x (getConflictsGo (allEntries zones).reverse [] []).1 = _
    rw [hA x, List.any_reverse]
    apply any_congr
    intro y _
    dsimp only
    rw [hconv y]
  · intro x
    show memE x (getConflictsGo (allEntries zones).reverse [] []).2 = _
    rw [hB x, List.any_reverse]
    apply any_congr
    intro y _
    dsimp only
    rw [hconv y]

/-- Claim C2: when the system's entries are de-duplicated by identity (all
identity keys distinct), the destructive working-list detector
`BindService._get_conflicts` and the pure set detector
`dns_data.get_conflicts` return the same (non-conflicting, conflicting)
pair of sets, and both match the canonical definition: an entry is in the
conflicting set iff some entry of the system conflicts with it while
differing from it, and in the non-conflicting set iff it occurs and has no
such conflicting partner. -/
theorem claim_C2 (zones : List Zone) (hK : keyNodup (allEntries zones)) :
    (∀ x, memE x (bind_get_conflicts zones).1 = memE x (get_conflicts zones).1) ∧
    (∀ x, memE x (bind_get_conflicts zones).2 = memE x (get_conflicts zones).2) ∧
    (∀ x, memE x (get_conflicts zones).2 =
      (allEntries zones).any
        (fun y => sameE x y && hasConIn (allEntries zones) y)) ∧
    (∀ x, memE x (get_conflicts zones).1 =
      (allEntries zones).any
        (fun y => sameE x y && !hasConIn (allEntries zones) y)) := by
  obtain ⟨hpc, hpn⟩ := get_conflicts_canonical zones
  obtain ⟨hb1, hb2⟩ := bind_get_conflicts_canonical zones hK
  exact ⟨fun x => (hb1 x).trans (hpn x).symm, fun x => (hb2 x).trans (hpc x).symm,
    hpc, hpn⟩

/-- The zones of a three-request submission (two conflicting, one not). -/
def zonesC2 : List Zone := dns_record_relations_data_to_zones [[exA, exB, exC]]

/-- Witness for C2 at a concrete input: on the grouped zones of requests
www A 1.1.1.1, www A 2.2.2.2 and mail A 1.1.1.1 (distinct identities), the
two detectors agree on the conflicting entry www A 1.1.1.1. -/
theorem claim_C2_witness :
    memE exA (bind_get_conflicts zonesC2).2 = memE exA (get_conflicts zonesC2).2 :=
  (claim_C2 zonesC2 (by show ((allEntries zonesC2).map DnsEntry.key).Nodup; decide)).2.1 exA

/-! ## C9: decimal round-trip -/

theorem digitChar_toNat {m : Nat} (h : m < 10) : (digitChar m).toNat = 48 + m := by
  interval_cases m <;> rfl

theorem digitChar_isDigit {m : Nat} (h : m < 10) : isDigitB (digitChar m) = true := by
  interval_cases m <;> rfl

theorem natToStrGo_acc (f : Nat) : ∀ (n : Nat) (acc : Str),
    natToStrGo f n acc = natToStrGo f n [] ++ acc := by
  induction f with
  | zero => intro n acc; rfl
  | succ g ih =>
    intro n acc
    show (if n = 0 then acc else natToStrGo g (n / 10) (digitChar (n % 10) :: acc)) = _
    by_cases hn : n = 0
    · simp [natToStrGo, hn]
    · rw [if_neg hn]
      rw [ih (n / 10) (digitChar (n % 10) :: acc)]
      have h2 : natToStrGo (g + 1) n [] =
          natToStrGo g (n / 10) [] ++ [digitChar (n % 10)] := by
        show (if n = 0 then ([] : Str) else _) = _
        rw [if_neg hn]
        exact ih (n / 10) [digitChar (n % 10)]
      rw [h2, List.append_assoc]
      rfl

theorem parseNatGo_append (a : Nat) (xs ys : Str) :
    parseNatGo a (xs ++ ys) = parseNatGo (parseNatGo a xs) ys := by
  induction xs generalizing a with
  | nil => rfl
  | cons c rest ih => exact ih (a * 10 + (c.toNat - 48))

theorem natToStrGo_spec (f : Nat) : ∀ n, n ≤ f →
    (∀ a, parseNatGo a (natToStrGo (f + 1) n []) =
      a * 10 ^ (natToStrGo (f + 1) n []).length + n) ∧
    (∀ c ∈ natToStrGo (f + 1) n [], isDigitB c = true) := by
  induction f with
  | zero =>
    intro n hn
    have hn0 : n = 0 := by omega
    subst hn0
    have hgo : natToStrGo (0 + 1) 0 [] = [] := rfl
    rw [hgo]
    constructor
    · intro a
      have h : parseNatGo a [] = a := rfl
      rw [h]
      simp
    · intro c hc
      exact absurd hc (List.not_mem_nil c)
  | succ g ih =>
    intro n hn
    by_cases hz : n = 0
    · subst hz
      have hgo : natToStrGo (g + 1 + 1) 0 [] = [] := rfl
      rw [hgo]
      constructor
      · intro a
        have h : parseNatGo a [] = a := rfl
        rw [h]
        simp
      · intro c hc
        exact absurd hc (List.not_mem_nil c)
    · have hsplitgo : natToStrGo (g + 1 + 1) n [] =
          natToStrGo (g + 1) (n / 10) [] ++ [digitChar (n % 10)] := by
        show (if n = 0 then ([] : Str) else _) = _
        rw [if_neg hz]
        exact natToStrGo_acc (g + 1) (n / 10) [digitChar (n % 10)]
      have hdiv : n / 10 ≤ g := by
        have h1 : n / 10 < n := Nat.div_lt_self (Nat.pos_of_ne_zero hz) (by omega)
        omega
      obtain ⟨ihv, ihd⟩ := ih (n / 10) hdiv
      constructor
      · intro a
        rw [hsplitgo, parseNatGo_append, ihv a]
        show (a * 10 ^ (natToStrGo (g + 1) (n / 10) []).length + n / 10) * 10 +
            ((digitChar (n % 10)).toNat - 48) =
          a * 10 ^ (natToStrGo (g + 1) (n / 10) [] ++ [digitChar (n % 10)]).length + n
        rw [digitChar_toNat (Nat.mod_lt n (by omega))]
        rw [List.length_append, List.length_cons, List.length_nil]
        ring_nf
        omega
      · intro c hc
        rw [hsplitgo] at hc
        rcases List.mem_append.mp hc with hc2 | hc2
        · exact ihd c hc2
        · rcases List.mem_singleton.mp hc2 with rfl
          exact digitChar_isDigit (Nat.mod_lt n (by omega))

theorem parseInt_natToStr (n : Nat) : parseInt (natToStr n) = some (n : Int) := by
  by_cases hz : n = 0
  · subst hz; decide
  · have hform : natToStr n = natToStrGo (n + 1) n [] := by
      unfold natToStr
      rw [if_neg hz]
    obtain ⟨hv, hd⟩ := natToStrGo_spec n n (Nat.le_refl n)
    rw [hform]
    cases hs : natToStrGo (n + 1) n [] with
    | nil =>
      have h0 := hv 0
      rw [hs] at h0
      have h1 : (0 : Nat) = 0 * 10 ^ (List.length ([] : Str)) + n := h0
      simp at h1
      exact absurd h1.symm hz
    | cons c rest =>
      have hcd : isDigitB c = true := by
        refine hd c ?_
        rw [hs]; exact List.mem_cons_self c rest
      have hcne : ¬(c = '-') := by
        intro hc
        rw [hc] at hcd
        exact absurd hcd (by decide)
      show (if c = '-' then
          if rest ≠ [] && rest.all isDigitB then some (-(parseNatGo 0 rest : Int)) else none
        else
          if (c :: rest).all isDigitB then some ((parseNatGo 0 (c :: rest) : Nat) : Int)
          else none) = some (n : Int)
      rw [if_neg hcne]
      have hall : (c :: rest).all isDigitB = true := by
        rw [List.all_eq_true]
        intro x hx
        refine hd x ?_
        rw [hs]; exact hx
      rw [if_pos hall]
      have := hv 0
      rw [hs] at this
      simp only [Nat.zero_mul, Nat.zero_add] at this
      rw [this]

/-! ## C9: split and prefix structure -/

theorem splitOnPred_nosep (p : Char → Bool) (a : Str) (ha : ∀ c ∈ a, p c = false) :
    splitOnPred p a = [a] := by
  induction a with
  | nil => rfl
  | cons c rest ih =>
    have hrest : splitOnPred p rest = [rest] :=
      ih (fun d hd => ha d (List.mem_cons_of_mem c hd))
    show (match splitOnPred p rest with
      | [] => [[]]
      | s :: ss => if p c then [] :: s :: ss else (c :: s) :: ss) = [c :: rest]
    rw [hrest]
    dsimp only
    rw [if_neg (by rw [ha c (List.mem_cons_self c rest)]; exact Bool.false_ne_true)]

theorem splitOnPred_append_nosep (p : Char → Bool) (a b : Str)
    (ha : ∀ c ∈ a, p c = false) :
    splitOnPred p (a ++ b) =
      (a ++ (splitOnPred p b).headD []) :: (splitOnPred p b).tail := by
  induction a with
  | nil =>
    cases hb : splitOnPred p b with
    | nil => exact absurd hb (splitOnPred_ne_nil p b)
    | cons s ss =>
      simp only [List.nil_append]
      rw [hb]
      rfl
  | cons c rest ih =>
    have ihr := ih (fun d hd => ha d (List.mem_cons_of_mem c hd))
    show (match splitOnPred p (rest ++ b) with
      | [] => [[]]
      | s :: ss => if p c then [] :: s :: ss else (c :: s) :: ss) = _
    rw [ihr]
    dsimp only
    rw [if_neg (by rw [ha c (List.mem_cons_self c rest)]; exact Bool.false_ne_true)]
    rfl

theorem splitOnPred_sep_cons (p : Char → Bool) (c : Char) (b : Str) (hc : p c = true) :
    splitOnPred p (c :: b) = [] :: splitOnPred p b := by
  show (match splitOnPred p b with
    | [] => [[]]
    | s :: ss => if p c then [] :: s :: ss else (c :: s) :: ss) = _
  cases hb : splitOnPred p b with
  | nil => exact absurd hb (splitOnPred_ne_nil p b)
  | cons s ss =>
    dsimp only
    rw [if_pos hc]

/-- Splitting a line off: a separator-free chunk followed by a separator. -/
theorem splitOnPred_line (p : Char → Bool) (a b : Str) (sep : Char)
    (ha : ∀ c ∈ a, p c = false) (hsep : p sep = true) :
    splitOnPred p (a ++ sep :: b) = a :: splitOnPred p b := by
  rw [splitOnPred_append_nosep p a (sep :: b) ha]
  rw [splitOnPred_sep_cons p sep b hsep]
  cases hb : splitOnPred p b with
  | nil => exact absurd hb (splitOnPred_ne_nil p b)
  | cons s ss => simp

/-- A list starting with a character other than `$` has no `$ORIGIN`
prefix. -/
theorem originNotPrefixed {s : Str} (h : s.headD ' ' ≠ '$') :
    ("$ORIGIN".toList).isPrefixOf s = false := by
  cases s with
  | nil => rfl
  | cons c rest =>
    show (('$' == c) && _) = false
    have : ('$' == c) = false := by
      simp only [List.headD_cons] at h
      simp only [beq_eq_false_iff_ne, ne_eq]
      exact fun hh => h hh.symm
    rw [this]
    rfl

theorem origin_prefix_append (t : Str) :
    ("$ORIGIN".toList).isPrefixOf ("$ORIGIN ".toList ++ t) = true := by
  rfl

/-! ## C9: rendered zone files parse back to their hash -/

/-- Fields free of newline characters. -/
def noNl (s : Str) : Bool := s.all (fun c => c ≠ '\n')

/-- Domains usable in the zone-file header: no newline (which would break
the line structure) and no semicolon (which would shift the metadata
comment section). -/
def wfDomain (d : Str) : Bool := d.all (fun c => c ≠ '\n' && c ≠ ';')

/-- Entries whose rendered record line keeps the file parsable: no newline
in any rendered field, and a host label not starting with the metadata
marker `$`. -/
def wfEntry (e : DnsEntry) : Bool :=
  wfDomain e.domain && noNl e.host_label && noNl e.record_class &&
    noNl e.record_type && noNl e.record_data &&
    decide (e.host_label.headD ' ' ≠ '$')

theorem isDigit_char_facts {c : Char} (h : isDigitB c = true) :
    decide (c = '\n') = false ∧ decide (c = ';') = false ∧
      decide (c = ':') = false ∧ isWsB c = false := by
  simp only [isDigitB, Bool.and_eq_true, decide_eq_true_eq] at h
  have hn : 48 ≤ c.toNat ∧ c.toNat ≤ 57 := ⟨by exact_mod_cast h.1, by exact_mod_cast h.2⟩
  refine ⟨?_, ?_, ?_, ?_⟩
  · simp only [decide_eq_false_iff_not]
    intro hc; rw [hc] at hn; exact absurd hn (by decide)
  · simp only [decide_eq_false_iff_not]
    intro hc; rw [hc] at hn; exact absurd hn (by decide)
  · simp only [decide_eq_false_iff_not]
    intro hc; rw [hc] at hn; exact absurd hn (by decide)
  · simp only [isWsB, Bool.or_eq_false_iff]
    refine ⟨⟨⟨?_, ?_⟩, ?_⟩, ?_⟩ <;>
      · simp only [decide_eq_false_iff_not]
        intro hc; rw [hc] at hn; exact absurd hn (by decide)

theorem natToStr_digits (n : Nat) : ∀ c ∈ natToStr n, isDigitB c = true := by
  by_cases hz : n = 0
  · subst hz
    intro c hc
    rcases List.mem_singleton.mp hc with rfl
    decide
  · have hform : natToStr n = natToStrGo (n + 1) n [] := by
      unfold natToStr
      rw [if_neg hz]
    rw [hform]
    exact (natToStrGo_spec n n (Nat.le_refl n)).2

/-- Line-splitting wrapper for `splitOnChar`. -/
theorem splitOnChar_line (sep : Char) (a b : Str)
    (ha : ∀ c ∈ a, decide (c = sep) = false) :
    splitOnChar sep (a ++ sep :: b) = a :: splitOnChar sep b :=
  splitOnPred_line _ a b sep ha (by simp)

/-- A separator-free chunk splits into itself. -/
theorem splitOnChar_nosep (sep : Char) (a : Str)
    (ha : ∀ c ∈ a, decide (c = sep) = false) :
    splitOnChar sep a = [a] :=
  splitOnPred_nosep _ a ha

/-- The record body of an entry: its rendered line without the final
newline. -/
def recordBody (e : DnsEntry) : Str :=
  e.host_label ++ ' ' :: e.record_class ++ ' ' :: e.record_type ++ ' ' :: e.record_data

theorem zoneRecordText_eq (e : DnsEntry) : zoneRecordText e = recordBody e ++ ['\n'] := by
  unfold zoneRecordText recordBody
  simp [List.append_assoc]

theorem recordBody_no_nl {e : DnsEntry} (h : wfEntry e = true) :
    ∀ c ∈ recordBody e, decide (c = '\n') = false := by
  simp only [wfEntry, Bool.and_eq_true] at h
  obtain ⟨⟨⟨⟨⟨_, h1⟩, h2⟩, h3⟩, h4⟩, _⟩ := h
  intro c hc
  simp only [recordBody, List.mem_append, List.mem_cons] at hc
  simp only [decide_eq_false_iff_not]
  have hfield : ∀ {s : Str}, noNl s = true → c ∈ s → ¬(c = '\n') := by
    intro s hs hcs
    simp only [noNl, List.all_eq_true] at hs
    have := hs c hcs
    simp only [decide_eq_true_eq] at this
    exact this
  rcases hc with ((hc | rfl | hc) | rfl | hc) | rfl | hc
  · exact hfield h1 hc
  · decide
  · exact hfield h2 hc
  · decide
  · exact hfield h3 hc
  · decide
  · exact hfield h4 hc

theorem recordBody_headD {e : DnsEntry} (h : wfEntry e = true) :
    (recordBody e).headD ' ' ≠ '$' := by
  simp only [wfEntry, Bool.and_eq_true, decide_eq_true_eq] at h
  have h6 := h.2
  unfold recordBody
  revert h6
  generalize e.host_label = hl
  intro h6
  cases hl with
  | nil =>
    simp
  | cons c rest =>
    simpa using h6

theorem collectMeta_skip (line : Str) (ls : List Str) (md : List (Str × Str))
    (h : ("$ORIGIN".toList).isPrefixOf line = false) :
    collectMeta (line :: ls) md = collectMeta ls md := by
  show (if ("$ORIGIN".toList).isPrefixOf line = true then _ else collectMeta ls md) = _
  rw [h, if_neg Bool.false_ne_true]

theorem collectMeta_records (entries : List DnsEntry) (md : List (Str × Str))
    (hwf : ∀ e ∈ entries, wfEntry e = true) :
    collectMeta (splitOnChar '\n' ((entries.map zoneRecordText).flatten)) md = .ok md := by
  induction entries with
  | nil => rfl
  | cons e es ih =>
    have hjoin : ((e :: es).map zoneRecordText).flatten =
        recordBody e ++ '\n' :: ((es.map zoneRecordText).flatten) := by
      show zoneRecordText e ++ (es.map zoneRecordText).flatten = _
      rw [zoneRecordText_eq e, List.append_assoc]
      rfl
    rw [hjoin]
    rw [splitOnChar_line '\n' _ _ (recordBody_no_nl (hwf e (List.mem_cons_self e es)))]
    rw [collectMeta_skip _ _ _ (originNotPrefixed (recordBody_headD
      (hwf e (List.mem_cons_self e es))))]
    exact ih (fun x hx => hwf x (List.mem_cons_of_mem e hx))

/-- The rendered content of one zone file (the per-zone body of
`_zones_to_files_content`). -/
def zfContent (z : Zone) (now : Nat) : Str :=
  z.entries.foldl (fun content e => content ++ zoneRecordText e)
    (zoneHeaderText z.domain (now / 60) (zoneHash z))

theorem zones_to_files_content_eq (zones : List Zone) (now : Nat) :
    zones_to_files_content zones now =
      zones.map (fun z => (z.domain, zfContent z now)) := rfl

theorem foldl_append_texts (l : List DnsEntry) (init : Str) :
    l.foldl (fun c e => c ++ zoneRecordText e) init =
      init ++ (l.map zoneRecordText).flatten := by
  induction l generalizing init with
  | nil => simp
  | cons e es ih =>
    rw [List.foldl_cons, ih]
    simp [List.append_assoc]

theorem forall_mem_append {P : Char → Prop} {a b : Str}
    (ha : ∀ c ∈ a, P c) (hb : ∀ c ∈ b, P c) : ∀ c ∈ a ++ b, P c := by
  intro c hc
  rcases List.mem_append.mp hc with h | h
  · exact ha c h
  · exact hb c h

theorem wfDomain_facts {d : Str} (h : wfDomain d = true) :
    (∀ c ∈ d, decide (c = '\n') = false) ∧ (∀ c ∈ d, decide (c = ';') = false) := by
  simp only [wfDomain, List.all_eq_true, Bool.and_eq_true, decide_eq_true_eq] at h
  constructor
  · intro c hc
    simp only [decide_eq_false_iff_not]
    exact (h c hc).1
  · intro c hc
    simp only [decide_eq_false_iff_not]
    exact (h c hc).2

theorem collectMeta_header (d digits : Str) (ls : List Str)
    (hdsemi : ∀ c ∈ d, decide (c = ';') = false)
    (hdig : ∀ c ∈ digits, isDigitB c = true) :
    collectMeta (("$ORIGIN ".toList ++ d ++ ".; HASH:".toList ++ digits) :: ls) [] =
      collectMeta ls [("HASH".toList, digits)] := by
  have hsplit : splitOnChar ';' ("$ORIGIN ".toList ++ d ++ ".; HASH:".toList ++ digits) =
      ("$ORIGIN ".toList ++ d ++ ['.']) :: [' ' :: ("HASH:".toList ++ digits)] := by
    have hre : "$ORIGIN ".toList ++ d ++ ".; HASH:".toList ++ digits =
        ("$ORIGIN ".toList ++ d ++ ['.']) ++ ';' :: (' ' :: ("HASH:".toList ++ digits)) := by
      have hl : ".; HASH:".toList = '.' :: ';' :: ' ' :: "HASH:".toList := by decide
      rw [hl]
      simp [List.append_assoc]
    rw [hre]
    have horig : ∀ c ∈ "$ORIGIN ".toList, decide (c = ';') = false := by decide
    have hhashsemi : ∀ c ∈ "HASH:".toList, decide (c = ';') = false := by decide
    have hA : ∀ c ∈ "$ORIGIN ".toList ++ d ++ ['.'], decide (c = ';') = false := by
      intro c hc
      rcases List.mem_append.mp hc with h2 | h2
      · rcases List.mem_append.mp h2 with h3 | h3
        · exact horig c h3
        · exact hdsemi c h3
      · rcases List.mem_singleton.mp h2 with rfl
        decide
    have hB : ∀ c ∈ ' ' :: ("HASH:".toList ++ digits), decide (c = ';') = false := by
      intro c hc
      rcases List.mem_cons.mp hc with rfl | hc2
      · decide
      rcases List.mem_append.mp hc2 with h | h
      · exact hhashsemi c h
      · exact (isDigit_char_facts (hdig _ h)).2.1
    rw [splitOnChar_line ';' _ _ hA, splitOnChar_nosep ';' _ hB]
  have hws : pySplitWs (' ' :: ("HASH:".toList ++ digits)) = ["HASH:".toList ++ digits] := by
    have hhashws : ∀ c ∈ "HASH:".toList, isWsB c = false := by decide
    have hC : ∀ c ∈ "HASH:".toList ++ digits, isWsB c = false := by
      intro c hc
      rcases List.mem_append.mp hc with h | h
      · exact hhashws c h
      · exact (isDigit_char_facts (hdig _ h)).2.2.2
    unfold pySplitWs
    rw [splitOnPred_sep_cons isWsB ' ' _ (by decide)]
    rw [splitOnPred_nosep isWsB _ hC]
    rw [List.filter_cons, List.filter_cons, List.filter_nil]
    simp
  have htok : splitOnChar ':' ("HASH:".toList ++ digits) = ["HASH".toList, digits] := by
    have hre : "HASH:".toList ++ digits = "HASH".toList ++ ':' :: digits := rfl
    rw [hre]
    rw [splitOnChar_line ':' _ _ (by decide)]
    rw [splitOnChar_nosep ':' _ (fun c hc => (isDigit_char_facts (hdig _ hc)).2.2.1)]
  have hpref : ("$ORIGIN".toList).isPrefixOf
      ("$ORIGIN ".toList ++ d ++ ".; HASH:".toList ++ digits) = true := by
    have hre : "$ORIGIN ".toList ++ d ++ ".; HASH:".toList ++ digits =
        "$ORIGIN ".toList ++ (d ++ (".; HASH:".toList ++ digits)) := by
      simp [List.append_assoc]
    rw [hre, origin_prefix_append]
  show (if ("$ORIGIN".toList).isPrefixOf
      ("$ORIGIN ".toList ++ d ++ ".; HASH:".toList ++ digits) = true then
      (match splitOnChar ';' ("$ORIGIN ".toList ++ d ++ ".; HASH:".toList ++ digits) with
        | _ :: second :: _ =>
          match parseMetaTokens (pySplitWs second) [] with
          | .error e => .error e
          | .ok md2 => collectMeta ls md2
        | _ => Except.error MetaErr.invalid)
    else collectMeta ls []) = collectMeta ls [("HASH".toList, digits)]
  rw [hpref, if_pos rfl, hsplit]
  dsimp only
  rw [hws]
  have hptok : parseMetaTokens ["HASH:".toList ++ digits] [] =
      .ok [("HASH".toList, digits)] := by
    show (match splitOnChar ':' ("HASH:".toList ++ digits) with
      | [k, v] =>
        if ([] : List (Str × Str)).any (fun p => p.1 = k) = true then Except.error MetaErr.dup
        else parseMetaTokens [] (([] : List (Str × Str)) ++ [(k, v)])
      | _ => Except.error MetaErr.invalid) = _
    rw [htok]
    dsimp only
    rw [List.any_nil]
    rw [if_neg Bool.false_ne_true]
    rfl
  rw [hptok]

theorem zfContent_metadata (z : Zone) (now : Nat)
    (hd : wfDomain z.domain = true)
    (hwf : ∀ e ∈ z.entries, wfEntry e = true) :
    get_zonefile_metadata (zfContent z now) =
      .ok [("HASH".toList, natToStr (zoneHash z))] := by
  have hdnl := (wfDomain_facts hd).1
  have hdsemi := (wfDomain_facts hd).2
  have hdig : ∀ c ∈ natToStr (zoneHash z), isDigitB c = true := natToStr_digits _
  have hdignl : ∀ c ∈ natToStr (zoneHash z), decide (c = '\n') = false :=
    fun c hc => (isDigit_char_facts (hdig c hc)).1
  have hsernl : ∀ c ∈ natToStr (now / 60), decide (c = '\n') = false :=
    fun c hc => (isDigit_char_facts (natToStr_digits _ c hc)).1
  have hshape : zfContent z now =
      ("$ORIGIN ".toList ++ z.domain ++ ".; HASH:".toList ++ natToStr (zoneHash z)) ++ '\n' ::
        ("$TTL 600".toList ++ '\n' ::
          (("@ IN SOA ".toList ++ z.domain ++ ". mail.".toList ++ z.domain ++ ". ( ".toList ++
              natToStr (now / 60) ++ " 1d 1h 1h 10m )".toList) ++ '\n' ::
            ("@ IN NS localhost.".toList ++ '\n' ::
              (z.entries.map zoneRecordText).flatten))) := by
    unfold zfContent
    rw [foldl_append_texts]
    unfold zoneHeaderText
    have l1 : "\n$TTL 600\n@ IN SOA ".toList =
        '\n' :: ("$TTL 600".toList ++ '\n' :: "@ IN SOA ".toList) := by decide
    have l2 : " 1d 1h 1h 10m )\n@ IN NS localhost.\n".toList =
        " 1d 1h 1h 10m )".toList ++ '\n' :: ("@ IN NS localhost.".toList ++ ['\n']) := by decide
    rw [l1, l2]
    simp [List.append_assoc]
  unfold get_zonefile_metadata
  rw [hshape]
  have hline0 : ∀ c ∈ "$ORIGIN ".toList ++ z.domain ++ ".; HASH:".toList ++
      natToStr (zoneHash z), decide (c = '\n') = false :=
    forall_mem_append (forall_mem_append (forall_mem_append (by decide) hdnl) (by decide)) hdignl
  have hsoa : ∀ c ∈ "@ IN SOA ".toList ++ z.domain ++ ". mail.".toList ++ z.domain ++
      ". ( ".toList ++ natToStr (now / 60) ++ " 1d 1h 1h 10m )".toList,
      decide (c = '\n') = false :=
    forall_mem_append (forall_mem_append (forall_mem_append (forall_mem_append
      (forall_mem_append (forall_mem_append (by decide) hdnl) (by decide)) hdnl)
      (by decide)) hsernl) (by decide)
  rw [splitOnChar_line '\n' _ _ hline0]
  rw [splitOnChar_line '\n' _ _ (by decide : ∀ c ∈ "$TTL 600".toList,
    decide (c = '\n') = false)]
  rw [splitOnChar_line '\n' _ _ hsoa]
  rw [splitOnChar_line '\n' _ _ (by decide : ∀ c ∈ "@ IN NS localhost.".toList,
    decide (c = '\n') = false)]
  rw [collectMeta_header z.domain (natToStr (zoneHash z)) _ hdsemi hdig]
  rw [collectMeta_skip _ _ _ (by decide :
    ("$ORIGIN".toList).isPrefixOf "$TTL 600".toList = false)]
  have hsoahead : ("@ IN SOA ".toList ++ z.domain ++ ". mail.".toList ++ z.domain ++
      ". ( ".toList ++ natToStr (now / 60) ++ " 1d 1h 1h 10m )".toList).headD ' ' ≠ '$' := by
    have hh : ("@ IN SOA ".toList ++ z.domain ++ ". mail.".toList ++ z.domain ++
        ". ( ".toList ++ natToStr (now / 60) ++ " 1d 1h 1h 10m )".toList).headD ' ' = '@' := rfl
    rw [hh]
    decide
  rw [collectMeta_skip _ _ _ (originNotPrefixed hsoahead)]
  rw [collectMeta_skip _ _ _ (by decide :
    ("$ORIGIN".toList).isPrefixOf "@ IN NS localhost.".toList = false)]
  rw [collectMeta_records z.entries _ hwf]
  dsimp only
  rw [if_neg (by simp : ¬ ([("HASH".toList, natToStr (zoneHash z))] :
    List (Str × Str)) = [])]

/-! Every entry held by a zone built from the relation data is one of the
submitted entries, so a property of all submitted entries carries over. -/

theorem addE_pred {P : DnsEntry → Prop} {s : List DnsEntry} {e : DnsEntry}
    (hs : ∀ x ∈ s, P x) (he : P e) : ∀ x ∈ addE s e, P x := by
  intro x hx
  unfold addE at hx
  by_cases hm : memE e s = true
  · rw [if_pos hm] at hx
    exact hs x hx
  · rw [if_neg hm] at hx
    rcases List.mem_append.mp hx with h | h
    · exact hs x h
    · rcases List.mem_singleton.mp h with rfl
      exact he

theorem foldl_addE_pred {P : DnsEntry → Prop} (t : List DnsEntry) (s : List DnsEntry)
    (hs : ∀ x ∈ s, P x) (ht : ∀ x ∈ t, P x) : ∀ x ∈ t.foldl addE s, P x := by
  induction t generalizing s with
  | nil => exact hs
  | cons e ts ih =>
    rw [List.foldl_cons]
    exact ih (addE s e) (addE_pred hs (ht e (List.mem_cons_self e ts)))
      (fun y hy => ht y (List.mem_cons_of_mem e hy))

theorem groupStep_pred {P : DnsEntry → Prop} (acc : List (Str × List DnsEntry)) (e : DnsEntry)
    (hacc : ∀ p ∈ acc, ∀ x ∈ p.2, P x) (he : P e) :
    ∀ p ∈ groupStep acc e, ∀ x ∈ p.2, P x := by
  intro p hp x hx
  unfold groupStep at hp
  by_cases hin : acc.any (fun q => q.1 = e.domain) = true
  · rw [if_pos hin] at hp
    obtain ⟨q, hq, hfq⟩ := List.mem_map.mp hp
    subst hfq
    by_cases hqd : q.1 = e.domain
    · rw [if_pos hqd] at hx
      rcases List.mem_append.mp hx with h | h
      · exact hacc q hq x h
      · rcases List.mem_singleton.mp h with rfl
        exact he
    · rw [if_neg hqd] at hx
      exact hacc q hq x hx
  · rw [if_neg hin] at hp
    rcases List.mem_append.mp hp with h | h
    · exact hacc p h x hx
    · rcases List.mem_singleton.mp h with rfl
      rcases List.mem_singleton.mp hx with rfl
      exact he

theorem foldl_groupStep_pred {P : DnsEntry → Prop} (es : List DnsEntry)
    (acc : List (Str × List DnsEntry))
    (hacc : ∀ p ∈ acc, ∀ x ∈ p.2, P x) (hes : ∀ e ∈ es, P e) :
    ∀ p ∈ es.foldl groupStep acc, ∀ x ∈ p.2, P x := by
  induction es generalizing acc with
  | nil => exact hacc
  | cons e es2 ih =>
    rw [List.foldl_cons]
    exact ih _ (groupStep_pred acc e hacc (hes e (List.mem_cons_self e es2)))
      (fun y hy => hes y (List.mem_cons_of_mem e hy))

theorem rrdz_pred {P : DnsEntry → Prop} (rrd : RequirerData)
    (h : ∀ e ∈ rrd, P e) :
    ∀ z ∈ record_requirer_data_to_zones rrd, ∀ x ∈ z.entries, P x := by
  intro z hz x hx
  unfold record_requirer_data_to_zones at hz
  obtain ⟨p, hp, hfp⟩ := List.mem_map.mp hz
  subst hfp
  have hgrp : ∀ q ∈ groupByDomain rrd, ∀ y ∈ q.2, P y :=
    foldl_groupStep_pred rrd [] (by intro q hq; cases hq) h
  exact foldl_addE_pred p.2 [] (by intro y hy; cases hy) (hgrp p hp) x hx

theorem mergeZone_pred {P : DnsEntry → Prop} (zs : List Zone) (nz : Zone)
    (hzs : ∀ z ∈ zs, ∀ x ∈ z.entries, P x) (hnz : ∀ x ∈ nz.entries, P x) :
    ∀ z ∈ mergeZone zs nz, ∀ x ∈ z.entries, P x := by
  intro z hz x hx
  unfold mergeZone at hz
  by_cases hin : zs.any (fun w => w.domain = nz.domain) = true
  · rw [if_pos hin] at hz
    obtain ⟨q, hq, hfq⟩ := List.mem_map.mp hz
    subst hfq
    by_cases hqd : q.domain = nz.domain
    · rw [if_pos hqd] at hx
      exact foldl_addE_pred nz.entries q.entries (hzs q hq) hnz x hx
    · rw [if_neg hqd] at hx
      exact hzs q hq x hx
  · rw [if_neg hin] at hz
    rcases List.mem_append.mp hz with h | h
    · exact hzs z h x hx
    · rcases List.mem_singleton.mp h with rfl
      exact hnz x hx

theorem foldl_mergeZone_pred {P : DnsEntry → Prop} (nzs : List Zone) (zs : List Zone)
    (hzs : ∀ z ∈ zs, ∀ x ∈ z.entries, P x)
    (hnzs : ∀ nz ∈ nzs, ∀ x ∈ nz.entries, P x) :
    ∀ z ∈ nzs.foldl mergeZone zs, ∀ x ∈ z.entries, P x := by
  induction nzs generalizing zs with
  | nil => exact hzs
  | cons nz rest ih =>
    rw [List.foldl_cons]
    exact ih _ (mergeZone_pred zs nz hzs (hnzs nz (List.mem_cons_self nz rest)))
      (fun y hy => hnzs y (List.mem_cons_of_mem nz hy))

theorem relFold_pred {P : DnsEntry → Prop} (rel : RelationData) (init : List Zone)
    (hinit : ∀ z ∈ init, ∀ x ∈ z.entries, P x)
    (h : ∀ e ∈ flatEntries rel, P e) :
    ∀ z ∈ rel.foldl
      (fun zones rrd => (record_requirer_data_to_zones rrd).foldl mergeZone zones) init,
      ∀ x ∈ z.entries, P x := by
  induction rel generalizing init with
  | nil => exact hinit
  | cons rrd rest ih =>
    rw [List.foldl_cons]
    have hflat : flatEntries (rrd :: rest) = rrd ++ flatEntries rest := by
      simp [flatEntries]
    rw [hflat] at h
    exact ih _
      (foldl_mergeZone_pred _ init hinit
        (rrdz_pred rrd (fun e he => h e (List.mem_append.mpr (Or.inl he)))))
      (fun e he => h e (List.mem_append.mpr (Or.inr he)))

theorem relZones_pred {P : DnsEntry → Prop} (rel : RelationData)
    (h : ∀ e ∈ flatEntries rel, P e) :
    ∀ z ∈ dns_record_relations_data_to_zones rel, ∀ x ∈ z.entries, P x :=
  relFold_pred rel [] (by intro z hz; cases hz) h

theorem relZones_domain_wf (rel : RelationData)
    (hwf : ∀ e ∈ flatEntries rel, wfEntry e = true) :
    ∀ z ∈ dns_record_relations_data_to_zones rel, wfDomain z.domain = true := by
  intro z hz
  have hmem : z.domain ∈ (dns_record_relations_data_to_zones rel).map Zone.domain :=
    List.mem_map.mpr ⟨z, hz, rfl⟩
  have h2 := ((relZones_spec rel).2.1 z.domain).mp hmem
  obtain ⟨e, he, hed⟩ := List.mem_map.mp h2
  have h3 := hwf e he
  simp only [wfEntry, Bool.and_eq_true] at h3
  rw [← hed]
  exact h3.1.1.1.1.1

/-! File-store plumbing for the staged pass: staging writes build the
temporary directory without touching the live one, and the final move loop
installs every staged file into the live directory. -/

theorem applyOps_writeTemps (ws : List (Str × Str)) (st : FsState) :
    applyOps st (ws.map (fun p => FileOp.writeTemp p.1 p.2)) =
      { live := st.live, temp := ws.foldl (fun t p => fsWrite t p.1 p.2) st.temp } := by
  induction ws generalizing st with
  | nil => rfl
  | cons p ps ih =>
    rw [List.map_cons]
    show applyOps (applyOp st (FileOp.writeTemp p.1 p.2))
      (ps.map (fun q => FileOp.writeTemp q.1 q.2)) = _
    rw [ih]
    rfl

theorem fsWrite_not_mem (fs : Fs) (n c : Str) (h : n ∉ fs.map Prod.fst) :
    fsWrite fs n c = fs ++ [(n, c)] := by
  unfold fsWrite
  rw [if_neg]
  intro hany
  obtain ⟨p, hp, hpn⟩ := List.any_eq_true.mp hany
  rw [decide_eq_true_eq] at hpn
  exact h (List.mem_map.mpr ⟨p, hp, hpn⟩)

theorem foldl_fsWrite_fresh (ws : List (Str × Str)) (acc : Fs)
    (hfresh : ∀ n ∈ ws.map Prod.fst, n ∉ acc.map Prod.fst)
    (hnodup : (ws.map Prod.fst).Nodup) :
    ws.foldl (fun t p => fsWrite t p.1 p.2) acc = acc ++ ws := by
  induction ws generalizing acc with
  | nil => simp
  | cons p ps ih =>
    rw [List.foldl_cons]
    have hpn : p.1 ∉ acc.map Prod.fst :=
      hfresh p.1 (by rw [List.map_cons]; exact List.mem_cons_self _ _)
    rw [fsWrite_not_mem acc p.1 p.2 hpn]
    rw [List.map_cons] at hnodup
    have hnd := List.nodup_cons.mp hnodup
    rw [ih (acc ++ [(p.1, p.2)])]
    · simp
    · intro n hn
      rw [List.map_append]
      intro hmem
      rcases List.mem_append.mp hmem with h2 | h2
      · exact hfresh n (by rw [List.map_cons]; exact List.mem_cons_of_mem _ hn) h2
      · rcases List.mem_singleton.mp (by simpa using h2) with rfl
        exact hnd.1 hn
    · exact hnd.2

theorem lookupFs_cons_self (n c : Str) (fs : Fs) :
    lookupFs ((n, c) :: fs) n = some c := by
  unfold lookupFs
  rw [List.find?_cons]
  rw [show decide (((n, c) : Str × Str).1 = n) = true by simp]

theorem filter_ne_of_not_mem (fs : Fs) (n : Str) (h : n ∉ fs.map Prod.fst) :
    fs.filter (fun p => p.1 ≠ n) = fs := by
  rw [List.filter_eq_self]
  intro p hp
  rw [decide_eq_true_eq]
  intro hpn
  exact h (List.mem_map.mpr ⟨p, hp, hpn⟩)

theorem applyOps_moves (tl : List (Str × Str)) (lv : Fs)
    (hnodup : (tl.map Prod.fst).Nodup) :
    applyOps { live := lv, temp := tl } ((tl.map Prod.fst).map FileOp.moveToLive) =
      { live := tl.foldl (fun l p => fsWrite l p.1 p.2) lv, temp := [] } := by
  induction tl generalizing lv with
  | nil => rfl
  | cons p ps ih =>
    obtain ⟨n, c⟩ := p
    rw [List.map_cons, List.map_cons]
    show applyOps (applyOp { live := lv, temp := (n, c) :: ps } (FileOp.moveToLive n))
      ((ps.map Prod.fst).map FileOp.moveToLive) = _
    rw [List.map_cons] at hnodup
    have hnd := List.nodup_cons.mp hnodup
    have hlook : lookupFs ((n, c) :: ps) n = some c := lookupFs_cons_self n c ps
    have happ : applyOp { live := lv, temp := (n, c) :: ps } (FileOp.moveToLive n) =
        { live := fsWrite lv n c,
          temp := ((n, c) :: ps).filter (fun q => q.1 ≠ n) } := by
      unfold applyOp
      dsimp only
      rw [hlook]
    rw [happ]
    have hfilter : ((n, c) :: ps).filter (fun q => q.1 ≠ n) = ps := by
      rw [List.filter_cons]
      rw [if_neg (by simp)]
      exact filter_ne_of_not_mem ps n hnd.1
    rw [hfilter]
    rw [ih (fsWrite lv n c) hnd.2]
    rw [List.foldl_cons]

theorem lookupFs_foldl_of_not_mem (tl : List (Str × Str)) (lv : Fs) (n : Str)
    (h : n ∉ tl.map Prod.fst) :
    lookupFs (tl.foldl (fun l p => fsWrite l p.1 p.2) lv) n = lookupFs lv n := by
  induction tl generalizing lv with
  | nil => rfl
  | cons p ps ih =>
    rw [List.map_cons] at h
    rw [List.foldl_cons]
    rw [ih (fsWrite lv p.1 p.2) (fun h2 => h (List.mem_cons_of_mem _ h2))]
    exact lookupFs_fsWrite_ne lv p.1 n p.2 (fun h2 => h (h2 ▸ List.mem_cons_self _ _))

theorem lookupFs_foldl_mem (tl : List (Str × Str)) (lv : Fs) (n c : Str)
    (hnodup : (tl.map Prod.fst).Nodup) (hmem : (n, c) ∈ tl) :
    lookupFs (tl.foldl (fun l p => fsWrite l p.1 p.2) lv) n = some c := by
  induction tl generalizing lv with
  | nil => cases hmem
  | cons p ps ih =>
    rw [List.map_cons] at hnodup
    have hnd := List.nodup_cons.mp hnodup
    rw [List.foldl_cons]
    rcases List.mem_cons.mp hmem with rfl | hmem2
    · rw [lookupFs_foldl_of_not_mem ps (fsWrite lv n c) n hnd.1]
      exact lookupFs_fsWrite_self lv n c
    · exact ih (fsWrite lv p.1 p.2) hnd.2 hmem2

theorem zonesChangedLoop_all_false (fs : Fs) (zs : List Zone)
    (h : ∀ z ∈ zs, hashCheckZone fs z = .ok false) :
    zonesChangedLoop fs zs = .ok false := by
  induction zs with
  | nil => rfl
  | cons z rest ih =>
    show (match hashCheckZone fs z with
      | .error e => .error e
      | .ok true => .ok true
      | .ok false => zonesChangedLoop fs rest) = Except.ok false
    rw [h z (List.mem_cons_self z rest)]
    exact ih (fun w hw => h w (List.mem_cons_of_mem z hw))

theorem dbFile_injective : Function.Injective dbFile := by
  intro a b h
  unfold dbFile at h
  exact List.append_cancel_left h

theorem dbFile_ne_conf (d : Str) : dbFile d ≠ namedConfLocal := by
  intro h
  have h2 : (dbFile d).headD ' ' = namedConfLocal.headD ' ' := by rw [h]
  have h3 : (dbFile d).headD ' ' = 'd' := rfl
  have h4 : namedConfLocal.headD ' ' = 'n' := rfl
  rw [h3, h4] at h2
  exact absurd h2 (by decide)

theorem applyOps_append (st : FsState) (a b : List FileOp) :
    applyOps st (a ++ b) = applyOps (applyOps st a) b := by
  unfold applyOps
  rw [List.foldl_append]

/-- The files staged by an active-unit pass, in staging order: one zone file
per zone, then `named.conf.local`. -/
def stagedFiles (rel : RelationData) (t : Topology) (now : Nat) : List (Str × Str) :=
  (dns_record_relations_data_to_zones rel).map (fun z => (dbFile z.domain, zfContent z now)) ++
    [(namedConfLocal,
      generate_named_conf_local ((dns_record_relations_data_to_zones rel).map Zone.domain)
        (some t))]

theorem stagedFiles_names_nodup (rel : RelationData) (t : Topology) (now : Nat) :
    ((stagedFiles rel t now).map Prod.fst).Nodup := by
  have hfst : (stagedFiles rel t now).map Prod.fst =
      (((dns_record_relations_data_to_zones rel).map Zone.domain).map dbFile) ++
        [namedConfLocal] := by
    unfold stagedFiles
    simp [List.map_append, List.map_map]
  rw [hfst]
  apply List.Nodup.append
  · exact List.Nodup.map dbFile_injective (relZones_spec rel).1
  · exact List.nodup_singleton _
  · intro x hx hx2
    rcases List.mem_map.mp hx with ⟨d, _, rfl⟩
    exact dbFile_ne_conf d (List.mem_singleton.mp hx2)

theorem updateOps_eq (rel : RelationData) (t : Topology) (now : Nat)
    (hact : t.is_current_unit_active = true)
    (hnoc : (bind_get_conflicts (dns_record_relations_data_to_zones rel)).2 = []) :
    updateOps rel (some t) now =
      FileOp.writeLive dbServiceFile (zoneServiceText (now / 60)) ::
        ((stagedFiles rel t now).map (fun p => FileOp.writeTemp p.1 p.2) ++
          ((stagedFiles rel t now).map Prod.fst).map FileOp.moveToLive) := by
  show (if (bind_get_conflicts (dns_record_relations_data_to_zones rel)).2 ≠ [] then []
    else
      FileOp.writeLive dbServiceFile (zoneServiceText (now / 60)) ::
        (if topoActive (some t) then
          (zones_to_files_content (dns_record_relations_data_to_zones rel) now).map
            (fun p => FileOp.writeTemp (dbFile p.1) p.2)
        else []) ++
        [FileOp.writeTemp namedConfLocal
          (generate_named_conf_local ((dns_record_relations_data_to_zones rel).map Zone.domain)
            (some t))] ++
        ((if topoActive (some t) then
            (zones_to_files_content (dns_record_relations_data_to_zones rel) now).map
              (fun p => dbFile p.1)
          else []) ++ [namedConfLocal]).map FileOp.moveToLive) = _
  rw [hnoc]
  rw [if_neg (by simp)]
  have htact : topoActive (some t) = true := hact
  rw [htact, if_pos rfl, if_pos rfl]
  unfold stagedFiles
  rw [zones_to_files_content_eq]
  simp only [List.map_append, List.map_map, List.append_assoc, List.singleton_append,
    List.cons_append, List.nil_append]
  rfl

theorem update_live_eq (fs : Fs) (rel : RelationData) (t : Topology) (now : Nat)
    (hact : t.is_current_unit_active = true)
    (hnoc : (bind_get_conflicts (dns_record_relations_data_to_zones rel)).2 = []) :
    (applyOps { live := fs, temp := [] } (updateOps rel (some t) now)).live =
      (stagedFiles rel t now).foldl (fun l p => fsWrite l p.1 p.2)
        (fsWrite fs dbServiceFile (zoneServiceText (now / 60))) := by
  rw [updateOps_eq rel t now hact hnoc]
  show (applyOps
      { live := fsWrite fs dbServiceFile (zoneServiceText (now / 60)), temp := [] }
      ((stagedFiles rel t now).map (fun p => FileOp.writeTemp p.1 p.2) ++
        ((stagedFiles rel t now).map Prod.fst).map FileOp.moveToLive)).live = _
  rw [applyOps_append]
  rw [applyOps_writeTemps]
  dsimp only
  have htemp : (stagedFiles rel t now).foldl (fun t2 p => fsWrite t2 p.1 p.2) [] =
      stagedFiles rel t now := by
    have h := foldl_fsWrite_fresh (stagedFiles rel t now) [] (by intro n _ h2; cases h2)
      (stagedFiles_names_nodup rel t now)
    simpa using h
  rw [htemp]
  rw [applyOps_moves (stagedFiles rel t now) _ (stagedFiles_names_nodup rel t now)]

theorem update_then_unchanged (fs : Fs) (rel : RelationData) (t : Topology) (now : Nat)
    (sa : Bool)
    (hact : t.is_current_unit_active = true)
    (hnoc : (bind_get_conflicts (dns_record_relations_data_to_zones rel)).2 = [])
    (hwf : ∀ e ∈ flatEntries rel, wfEntry e = true) :
    has_a_zone_changed (update_zonefiles_and_reload fs rel (some t) now sa).1 rel (some t) =
      .ok false := by
  have hupd : update_zonefiles_and_reload fs rel (some t) now sa =
      ((applyOps { live := fs, temp := [] } (updateOps rel (some t) now)).live, sa) := by
    show (if (bind_get_conflicts (dns_record_relations_data_to_zones rel)).2 ≠ []
      then (fs, false)
      else ((applyOps { live := fs, temp := [] } (updateOps rel (some t) now)).live, sa)) = _
    rw [hnoc]
    rw [if_neg (by simp)]
  rw [hupd]
  dsimp only
  rw [update_live_eq fs rel t now hact hnoc]
  have hnod := stagedFiles_names_nodup rel t now
  have hzlookup : ∀ z ∈ dns_record_relations_data_to_zones rel,
      lookupFs ((stagedFiles rel t now).foldl (fun l p => fsWrite l p.1 p.2)
        (fsWrite fs dbServiceFile (zoneServiceText (now / 60)))) (dbFile z.domain) =
        some (zfContent z now) := by
    intro z hz
    apply lookupFs_foldl_mem _ _ _ _ hnod
    unfold stagedFiles
    exact List.mem_append.mpr (Or.inl (List.mem_map.mpr ⟨z, hz, rfl⟩))
  have hconf : lookupFs ((stagedFiles rel t now).foldl (fun l p => fsWrite l p.1 p.2)
      (fsWrite fs dbServiceFile (zoneServiceText (now / 60)))) namedConfLocal =
      some (generate_named_conf_local
        ((dns_record_relations_data_to_zones rel).map Zone.domain) (some t)) := by
    apply lookupFs_foldl_mem _ _ _ _ hnod
    unfold stagedFiles
    exact List.mem_append.mpr (Or.inr (List.mem_singleton.mpr rfl))
  have hzcheck : ∀ z ∈ dns_record_relations_data_to_zones rel,
      hashCheckZone ((stagedFiles rel t now).foldl (fun l p => fsWrite l p.1 p.2)
        (fsWrite fs dbServiceFile (zoneServiceText (now / 60)))) z = .ok false := by
    intro z hz
    have hdm : wfDomain z.domain = true := relZones_domain_wf rel hwf z hz
    have hew : ∀ x ∈ z.entries, wfEntry x = true := relZones_pred rel hwf z hz
    unfold hashCheckZone
    rw [hzlookup z hz]
    dsimp only
    rw [zfContent_metadata z now hdm hew]
    dsimp only
    rw [List.find?_cons]
    rw [show decide ((("HASH".toList, natToStr (zoneHash z)) : Str × Str).1 =
      "HASH".toList) = true from by simp]
    dsimp only
    rw [parseInt_natToStr]
    simp
  have hloop := zonesChangedLoop_all_false _ _ hzcheck
  unfold has_a_zone_changed
  dsimp only
  rw [hloop]
  dsimp only
  rw [hact]
  rw [if_pos rfl]
  rw [hconf]
  rfl

/-- A topology making this unit a standby. -/
def topoStandby : Topology :=
  { active_unit_ip := "10.0.0.9".toList, standby_units_ip := [],
    is_current_unit_active := false }

/-- C9 (amended): on the active unit, with no conflicting entries, entries
whose rendered fields keep the zone file parsable, and a first change
detection that does not raise, reconciliation is idempotent: after one pass
the change detector reports unchanged, and a second pass with the same
entries and topology leaves the configuration untouched and signals no
reload. -/
theorem claim_C9 (fs : Fs) (rel : RelationData) (t : Topology) (now now2 : Nat)
    (sa sa2 : Bool) (b : Bool)
    (hact : t.is_current_unit_active = true)
    (hnoc : (bind_get_conflicts (dns_record_relations_data_to_zones rel)).2 = [])
    (hwf : ∀ e ∈ flatEntries rel, wfEntry e = true)
    (hdet : has_a_zone_changed fs rel (some t) = .ok b) :
    has_a_zone_changed (reconcilePass fs rel (some t) now sa).1 rel (some t) = .ok false ∧
    reconcilePass (reconcilePass fs rel (some t) now sa).1 rel (some t) now2 sa2 =
      ((reconcilePass fs rel (some t) now sa).1, false) := by
  cases b with
  | false =>
    have hfs : reconcilePass fs rel (some t) now sa = (fs, false) := by
      unfold reconcilePass
      rw [hdet]
    constructor
    · rw [hfs]
      exact hdet
    · rw [hfs]
      show reconcilePass fs rel (some t) now2 sa2 = (fs, false)
      unfold reconcilePass
      rw [hdet]
  | true =>
    have hfs : reconcilePass fs rel (some t) now sa =
        update_zonefiles_and_reload fs rel (some t) now sa := by
      unfold reconcilePass
      rw [hdet]
    have hsec := update_then_unchanged fs rel t now sa hact hnoc hwf
    constructor
    · rw [hfs]
      exact hsec
    · rw [hfs]
      unfold reconcilePass
      rw [hsec]

/-- C9 witness: an active-unit deployment of the single request
www.example.com A 1.1.1.1 over an empty directory satisfies every
hypothesis, and a second pass is a no-op without reload. -/
theorem claim_C9_witness :
    (exTopo.is_current_unit_active = true ∧
      (bind_get_conflicts (dns_record_relations_data_to_zones [[exA]])).2 = [] ∧
      (∀ e ∈ flatEntries [[exA]], wfEntry e = true) ∧
      has_a_zone_changed [] [[exA]] (some exTopo) = .ok true) ∧
    has_a_zone_changed (reconcilePass [] [[exA]] (some exTopo) 120 true).1 [[exA]]
        (some exTopo) = .ok false ∧
    reconcilePass (reconcilePass [] [[exA]] (some exTopo) 120 true).1 [[exA]] (some exTopo)
        180 true = ((reconcilePass [] [[exA]] (some exTopo) 120 true).1, false) :=
  ⟨⟨by decide, by decide, by decide, by decide⟩,
    claim_C9 [] [[exA]] exTopo 120 180 true true true (by decide) (by decide) (by decide)
      (by decide)⟩

/-- C9 counterexample to the unrestricted claim: on a standby unit the pass
never writes zone files, so the change detector reports changed on every
pass and two successive reconciliations with identical inputs each signal a
reload. -/
theorem claim_C9_counterexample :
    (reconcilePass [] [[exA]] (some topoStandby) 120 true).2 = true ∧
    (reconcilePass (reconcilePass [] [[exA]] (some topoStandby) 120 true).1 [[exA]]
        (some topoStandby) 180 true).2 = true := by decide

end BindOp
